import Mathlib

/-!
The njs command-line shell (`njs.c`).

A shallow embedding of the interactive-shell support layer of `njs.c`:
the tab-completion generator, the script loader of `njs_process_file`,
the backtrace printer, the execution driver `njs_process_script`, the
option parser `njs_get_options`, the two modes `njs_interactive_shell` and
`njs_process_file`, and `main`.

C strings are lists of characters: the list holds the bytes that precede
the terminating NUL.  Arrays are lists, indices and sizes are natural
numbers.  A C call that would read outside an object has no defined
result; the embedding returns `none` for it.
-/

namespace Njs

/-- Bytes of a C string, up to and excluding its terminating NUL. -/
abbrev CStr := List Char

/-- The completion phases (`njs_completion_phase_t`). -/
inductive njs_completion_phase_t where
  | NJS_COMPLETION_GLOBAL
  | NJS_COMPLETION_SUFFIX
  deriving DecidableEq, Repr

open njs_completion_phase_t

/-- The mutable part of `njs_completion_t`: the array cursor `index`, the
recorded token length `length`, the position `lhe` of the scope iterator and
the `phase`.  The fields `vm` and `completions` are set once by
`njs_editline_init`; they live in `Shell`. -/
structure njs_completion_t where
  index : Nat
  length : Nat
  lhe : Nat
  phase : njs_completion_phase_t
  deriving DecidableEq, Repr

/-- What `njs_editline_init` stored: `completions` are the names of the array
returned by `njs_vm_completions`, in array order, before its `NULL` sentinel;
`scope` is `none` when `vm->parser` is `NULL` and otherwise the names of the
variables of `vm->parser->scope->variables`. -/
structure Shell where
  completions : List CStr
  scope : Option (List CStr)

/-- C `strncmp(a, b, n) == 0`: at most `n` bytes are compared and the
comparison stops after a terminating NUL. -/
def strncmp_eq : CStr → CStr → Nat → Bool
  | _, _, 0 => true
  | [], [], _ + 1 => true
  | [], _ :: _, _ + 1 => false
  | _ :: _, [], _ + 1 => false
  | a :: as, b :: bs, n + 1 => a == b && strncmp_eq as bs n

/-- Whether `name[0] == '.'`. -/
def dotted (name : CStr) : Bool :=
  name.head? == some '.'

/-- The first loop of the GLOBAL phase.  The list is the part of the array
from `cmpl->index` to the sentinel; the result is the returned name (if any)
and the new value of `cmpl->index`.  At the sentinel the loop breaks before
the increment. -/
def globalLoop (text : CStr) (length : Nat) : List CStr → Nat → Option CStr × Nat
  | [], index => (none, index)
  | name :: rest, index =>
    if dotted name then globalLoop text length rest (index + 1)
    else if strncmp_eq name text length then (some name, index + 1)
    else globalLoop text length rest (index + 1)

/-- Modelled from the spec: `nxt_lvlhsh_each` and `nxt_lvlhsh_each_init` are
not among the sources.  The scope enumeration is a resumable iterator; its
position is the number of variables already produced, `nxt_lvlhsh_each_init`
puts it at 0, and an exhausted iterator stays exhausted.  The list is the part
of the enumeration not yet produced.  This is the second loop of the GLOBAL
phase: the result is the returned variable name and the new position.  The
bytes at `var->name.start` are compared as a C string. -/
def scopeLoop (text : CStr) (length : Nat) : List CStr → Nat → Option CStr × Nat
  | [], lhe => (none, lhe)
  | var :: rest, lhe =>
    if strncmp_eq var text length then (some var, lhe + 1)
    else scopeLoop text length rest (lhe + 1)

/-- The backward separator scan `while (p > text && *p != '.') { p--; len++; }`,
with `p` as an offset into `text`; the result is the final `(p, len)`. -/
def scanBack (text : CStr) : Nat → Nat → Nat × Nat
  | 0, len => (0, len)
  | p + 1, len =>
    if text.getD (p + 1) '\x00' ≠ '.' then scanBack text p (len + 1) else (p + 1, len)

/-- The loop of the SUFFIX phase: `name = cmpl->completions[cmpl->index++]`
increments the cursor also when it reads the sentinel.  `psuffix` is the C
string at `p`.  The result is the matching name and the new `cmpl->index`. -/
def suffixLoop (psuffix : CStr) (len : Nat) : List CStr → Nat → Option CStr × Nat
  | [], index => (none, index + 1)
  | name :: rest, index =>
    if !dotted name then suffixLoop psuffix len rest (index + 1)
    else if !strncmp_eq name psuffix len then suffixLoop psuffix len rest (index + 1)
    else (some name, index + 1)

/-- The result of one call of the generator: the returned string (`none` for
`NULL`), the session afterwards, and whether the call executed the backward
separator scan. -/
structure Call where
  ret : Option CStr
  cmpl : njs_completion_t
  scanned : Bool
  deriving DecidableEq, Repr

/-- The part of `njs_completion_generator` from `len = 1;` to the end.
`&text[cmpl->length - 1]` must point into the string (terminator included)
and `cmpl->completions[cmpl->index]` into the array (sentinel included).
`snprintf` writes at most `len - 1` bytes of `"%.*s%s"`.  Allocation is taken
to succeed. -/
def suffixPhase (sh : Shell) (text : CStr) (cmpl : njs_completion_t) : Option Call :=
  if cmpl.length = 0 ∨ text.length < cmpl.length - 1 then none
  else
    let pl := scanBack text (cmpl.length - 1) 1
    let p := pl.1
    let len := pl.2
    if text.getD p '\x00' ≠ '.' then
      some { ret := none, cmpl := cmpl, scanned := true }
    else if sh.completions.length < cmpl.index then none
    else
      match suffixLoop (text.drop p) len (sh.completions.drop cmpl.index) cmpl.index with
      | (some name, index) =>
        let len := name.length + p + 2
        some { ret := some ((text.take p ++ name).take (len - 1)),
               cmpl := { cmpl with index := index }, scanned := true }
      | (none, index) =>
        some { ret := none, cmpl := { cmpl with index := index }, scanned := true }

/-- The function `njs_completion_generator(text, state)` acting on the session
`njs_completion`.  `none` stands for a read outside the completion array or
outside `text`.  `strdup` and `malloc` are taken to succeed. -/
def njs_completion_generator (sh : Shell) (text : CStr) (state : Nat)
    (cmpl0 : njs_completion_t) : Option Call :=
  let cmpl : njs_completion_t :=
    if state = 0 then
      { index := 0, length := text.length, lhe := 0, phase := NJS_COMPLETION_GLOBAL }
    else cmpl0
  match cmpl.phase with
  | NJS_COMPLETION_GLOBAL =>
    if sh.completions.length < cmpl.index then none
    else
      match globalLoop text cmpl.length (sh.completions.drop cmpl.index) cmpl.index with
      | (some name, index) =>
        some { ret := some name, cmpl := { cmpl with index := index }, scanned := false }
      | (none, index) =>
        let remaining : List CStr :=
          match sh.scope with
          | none => []
          | some vars => vars.drop cmpl.lhe
        match scopeLoop text cmpl.length remaining cmpl.lhe with
        | (some var, lhe) =>
          some { ret := some var, cmpl := { cmpl with index := index, lhe := lhe },
                 scanned := false }
        | (none, lhe) =>
          if cmpl.length = 0 then
            some { ret := none, cmpl := { cmpl with index := index, lhe := lhe },
                   scanned := false }
          else
            suffixPhase sh text
              { cmpl with index := 0, lhe := lhe, phase := NJS_COMPLETION_SUFFIX }
  | NJS_COMPLETION_SUFFIX => suffixPhase sh text cmpl

/-- The calls of one completion request as `rl_completion_matches` makes them:
`fuel` successive calls with the same `text`, the first with `state`, each
next one with the state one larger, threading the session. -/
def requestFrom (sh : Shell) (text : CStr) : Nat → Nat → njs_completion_t → Option (List Call)
  | _, 0, _ => some []
  | state, fuel + 1, cmpl =>
    match njs_completion_generator sh text state cmpl with
    | none => none
    | some r =>
      match requestFrom sh text (state + 1) fuel r.cmpl with
      | none => none
      | some rs => some (r :: rs)

/-- The first `k` calls of a request for `text` that starts (with state 0)
from the session `prior`. -/
def request (sh : Shell) (text : CStr) (prior : njs_completion_t) (k : Nat) :
    Option (List Call) :=
  requestFrom sh text 0 k prior

/-- The strings returned by the first `k` calls of a request. -/
def requestRets (sh : Shell) (text : CStr) (prior : njs_completion_t) (k : Nat) :
    Option (List (Option CStr)) :=
  (request sh text prior k).map (List.map Call.ret)

/-- Specification side: the names of the source that do not start with `'.'`
and have `text` as a prefix, in array order. -/
def globalMatches (completions : List CStr) (text : CStr) : List CStr :=
  completions.filter (fun name => !dotted name && text.isPrefixOf name)

/-- Specification side: the in-scope variable names that have `text` as a
prefix, in enumeration order; empty when no parser scope is active. -/
def scopeMatches (scope : Option (List CStr)) (text : CStr) : List CStr :=
  match scope with
  | none => []
  | some vars => vars.filter (fun var => text.isPrefixOf var)

/-- Specification side: the names of the source that start with `'.'` and have
`suffix` as a prefix, in array order. -/
def dottedMatches (completions : List CStr) (suffix : CStr) : List CStr :=
  completions.filter (fun name => dotted name && suffix.isPrefixOf name)

/-- The session a state-0 call installs before it does anything else. -/
def resetSession (text : CStr) : njs_completion_t :=
  { index := 0, length := text.length, lhe := 0, phase := NJS_COMPLETION_GLOBAL }

/-- The variables the scope iterator at position `lhe` has yet to produce. -/
def remainingVars (sh : Shell) (lhe : Nat) : List CStr :=
  match sh.scope with
  | none => []
  | some vars => vars.drop lhe

/-- The example source `console`, `.log`, `.help` without an active scope. -/
def shellExample : Shell :=
  { completions := ["console".toList, ".log".toList, ".help".toList], scope := none }

/-- The session as the zero-initialised static `njs_completion` holds it. -/
def cmplZero : njs_completion_t :=
  { index := 0, length := 0, lhe := 0, phase := NJS_COMPLETION_GLOBAL }

/-- Rets of `fuel` calls from `cmpl`, the first with state `state`. -/
def retsFrom (sh : Shell) (text : CStr) (state fuel : Nat) (cmpl : njs_completion_t) :
    Option (List (Option CStr)) :=
  (requestFrom sh text state fuel cmpl).map (List.map Call.ret)

/-- The session is in the GLOBAL phase of a request for `text`, its cursors are
in range, and `rest` and `vars` are what the two cursors have yet to visit. -/
structure GlobalAt (sh : Shell) (text : CStr) (cmpl : njs_completion_t)
    (rest vars : List CStr) : Prop where
  phase : cmpl.phase = NJS_COMPLETION_GLOBAL
  length : cmpl.length = text.length
  drop : sh.completions.drop cmpl.index = rest
  index : cmpl.index ≤ sh.completions.length
  vars : remainingVars sh cmpl.lhe = vars

/-- The session is in the SUFFIX phase of a request for `text`, the cursor is in
range and `rest` is the part of the array it has yet to visit. -/
structure SuffixAt (sh : Shell) (text : CStr) (cmpl : njs_completion_t)
    (rest : List CStr) : Prop where
  phase : cmpl.phase = NJS_COMPLETION_SUFFIX
  length : cmpl.length = text.length
  drop : sh.completions.drop cmpl.index = rest
  index : cmpl.index ≤ sh.completions.length

/-- The status codes `nxt_int_t` the shell uses. -/
inductive nxt_int_t where
  | NXT_OK
  | NXT_ERROR
  | NXT_DONE
  deriving DecidableEq, Repr

open nxt_int_t

/-- The result of one `read(fd, buf, sizeof(buf))`: `bytes chunk` is a return
value `n = chunk.length ≥ 0` with the bytes placed in `buf` (`n = 0` is the end
of the stream), `failed` is a negative return value. -/
inductive ReadResult where
  | bytes (chunk : List Char)
  | failed
  deriving DecidableEq, Repr

/-- The loader's variables: `size` is the allocated size (`end - script.start`),
`length` is `script.length` (`p - script.start`), `start` holds the bytes
copied so far. -/
structure Script where
  size : Nat
  length : Nat
  start : List Char
  deriving DecidableEq, Repr

/-- How the loader ends: with the script, with `NXT_ERROR`, or in a `memcpy`
that writes past the end of the allocation (no defined result). -/
inductive LoadResult where
  | loaded (script : Script)
  | error
  | overflow
  deriving DecidableEq, Repr

/-- The initial `size`: `sizeof(buf)`, replaced by `sb.st_size` for a regular
file whose reported size is not zero. -/
def initialSize (isreg : Bool) (st_size : Nat) : Nat :=
  if isreg && st_size != 0 then st_size else 4096

/-- The new `size` after the growth decision `if (p + n > end) size *= 2;`
(`size_t` is 64 bits wide). -/
def grownSize (size length n : Nat) : Nat :=
  if length + n > size then size * 2 % 2 ^ 64 else size

/-- The read loop of `njs_process_file`.  `reads` are the results of the
successive `read` calls (a used-up list is the end of the stream), `alloc size`
tells whether `realloc` to `size` bytes succeeds. -/
def readLoop (alloc : Nat → Bool) : List ReadResult → Script → LoadResult
  | [], script => .loaded script
  | .failed :: _, _ => .error
  | .bytes chunk :: rest, script =>
    let n := chunk.length
    if n = 0 then .loaded script
    else
      let size := grownSize script.size script.length n
      if script.length + n > script.size ∧ alloc size = false then .error
      else if script.length + n > size then .overflow
      else
        readLoop alloc rest
          { size := size, length := script.length + n, start := script.start ++ chunk }

/-- The loader part of `njs_process_file`, from `fstat` to the end of the read
loop. -/
def loadScript (alloc : Nat → Bool) (isreg : Bool) (st_size : Nat)
    (reads : List ReadResult) : LoadResult :=
  let size := initialSize isreg st_size
  if alloc size = false then .error
  else readLoop alloc reads { size := size, length := 0, start := [] }

/-- Modelled from the spec: `njs_backtrace_entry_t` is declared in `njs_vm.h`,
which is not among the sources.  A frame has a `name` and a `line`, a
non-negative integer held in 32 bits; line 0 means no position. -/
structure njs_backtrace_entry_t where
  name : List Char
  line : Nat
  deriving DecidableEq, Repr

/-- The bytes `printf` writes for `%.*s` with the precision `text.length`: the
bytes of `text` up to the first NUL, if there is one. -/
def printf_s (text : List Char) : List Char :=
  text.takeWhile (fun c => c != '\x00')

/-- The bytes `printf` writes for `%d` when it is given the 32-bit value `v`:
the decimal digits of `v` below `2 ^ 31`, and a minus sign with the digits of
`2 ^ 32 - v` from there on. -/
def printf_d (v : Nat) : List Char :=
  if v % 2 ^ 32 < 2 ^ 31 then Nat.toDigits 10 (v % 2 ^ 32)
  else '-' :: Nat.toDigits 10 (2 ^ 32 - v % 2 ^ 32)

/-- One iteration of the loop of `njs_print_backtrace`: the `printf` appends a
line for the entry to what standard output holds, the line with `%d`, the name
with `%.*s`. -/
def printEntry (stdout : List Char) (be : njs_backtrace_entry_t) : List Char :=
  if be.line ≠ 0 then
    stdout ++ ("at ".toList ++ printf_s be.name ++ " (:".toList ++ printf_d be.line
      ++ ")\n".toList)
  else
    stdout ++ ("at ".toList ++ printf_s be.name ++ "\n".toList)

/-- The function `njs_print_backtrace`, as the new content of standard output:
the loop visits `be[0]`, ..., `be[items - 1]`. -/
def njs_print_backtrace (backtrace : List njs_backtrace_entry_t) (stdout : List Char) :
    List Char :=
  backtrace.foldl printEntry stdout

/-- Specification side: the rendering of one frame, without the newline. -/
def frameLine (name : List Char) (line : Nat) : List Char :=
  if line = 0 then "at ".toList ++ name
  else "at ".toList ++ name ++ " (:".toList ++ Nat.toDigits 10 line ++ ")".toList

/-- The options `njs_opts_t`. -/
structure njs_opts_t where
  file : Option (List Char)
  disassemble : Bool
  interactive : Bool
  deriving DecidableEq, Repr

/-- The runtime as the shell sees it, over a state `σ` of the VM:
`njs_vm_compile` and `njs_vm_run` tell whether they returned `NXT_OK`,
`njs_vm_retval` gives the text on `NXT_OK`, `njs_vm_exception` gives the
exception text, `njs_disassembler` what it prints, `njs_vm_backtrace` the
frames or `NULL`.  `run_stdout` is what the host functions the script calls
(`njs_ext_console_log`, `njs_ext_console_help`) print to standard output
during `njs_vm_run`. -/
structure Runtime (σ : Type) where
  njs_vm_compile : σ → List Char → Bool × σ
  njs_disassembler : σ → List Char
  njs_vm_run : σ → Bool × σ
  run_stdout : σ → List Char
  njs_vm_retval : σ → Option (List Char) × σ
  njs_vm_exception : σ → List Char × σ
  njs_vm_backtrace : σ → Option (List njs_backtrace_entry_t)

/-- The calls into the runtime, as recorded in call order. -/
inductive VmCall where
  | compile (script : List Char)
  | disassembler
  | run
  | retval
  | exception
  | backtrace
  deriving DecidableEq, Repr

/-- What a call of `njs_process_script` leaves behind: the returned status,
`*out` (`none` when the call did not set it), the VM, the text written to
standard output and the calls made into the runtime. -/
structure ScriptOutcome (σ : Type) where
  ret : nxt_int_t
  out : Option (List Char)
  vm : σ
  stdout : List Char
  calls : List VmCall

/-- The function `njs_process_script`. -/
def njs_process_script {σ : Type} (rt : Runtime σ) (vm : σ) (opts : njs_opts_t)
    (script : List Char) : ScriptOutcome σ :=
  let c := rt.njs_vm_compile vm script
  if c.1 then
    let dis : List Char := if opts.disassemble then rt.njs_disassembler c.2 ++ ['\n'] else []
    let discalls : List VmCall := if opts.disassemble then [.disassembler] else []
    let r := rt.njs_vm_run c.2
    let dis : List Char := dis ++ rt.run_stdout c.2
    if r.1 then
      let v := rt.njs_vm_retval r.2
      match v.1 with
      | none =>
        { ret := NXT_ERROR, out := none, vm := v.2, stdout := dis,
          calls := [.compile script] ++ discalls ++ [.run, .retval] }
      | some text =>
        { ret := NXT_OK, out := some text, vm := v.2, stdout := dis,
          calls := [.compile script] ++ discalls ++ [.run, .retval] }
    else
      let e := rt.njs_vm_exception r.2
      { ret := NXT_OK, out := some e.1, vm := e.2, stdout := dis,
        calls := [.compile script] ++ discalls ++ [.run, .exception] }
  else
    let e := rt.njs_vm_exception c.2
    { ret := NXT_OK, out := some e.1, vm := e.2, stdout := [],
      calls := [.compile script, .exception] }

/-- Specification side: the names of the in-scope variables, in enumeration
order; empty when no parser scope is active. -/
def scopeNames (scope : Option (List CStr)) : List CStr :=
  match scope with
  | none => []
  | some vars => vars

/-- An example source with an active scope. -/
def shellScoped : Shell :=
  { completions := ["console".toList, ".log".toList, "constructor".toList, ".help".toList],
    scope := some ["count".toList, "x".toList] }

/-- An example source that lists a property name twice. -/
def shellRepeated : Shell :=
  { completions := ["console".toList, ".toString".toList, ".toString".toList],
    scope := none }

/-- An allocator that never fails. -/
def allocAlways : Nat → Bool :=
  fun _ => true

/-- A runtime, over a trivial state, that compiles and runs every script but
fails to hand out the return value. -/
def runtimeNoRetval : Runtime Unit :=
  { njs_vm_compile := fun _ _ => (true, ()),
    njs_disassembler := fun _ => [],
    njs_vm_run := fun _ => (true, ()),
    run_stdout := fun _ => [],
    njs_vm_retval := fun _ => (none, ()),
    njs_vm_exception := fun _ => ("Error".toList, ()),
    njs_vm_backtrace := fun _ => none }

/-- Options of a batch run without disassembly. -/
def optsBatch : njs_opts_t :=
  { file := some "-".toList, disassemble := false, interactive := false }

/-- Whether `njs_get_options` takes the argument `p` as the file:
`p[0] != '-' || (p[0] == '-' && p[1] == '\0')`. -/
def positional (p : CStr) : Bool :=
  p.head? != some '-' || (p.head? == some '-' && p.tail.isEmpty)

/-- The character `*p` after `p++`, for an argument that is not positional. -/
def flagChar (p : CStr) : Char :=
  p.getD 1 '\x00'

/-- What `njs_get_options` leaves behind: the returned status, the options and
the text written to standard output and to standard error. -/
structure OptionsOutcome where
  ret : nxt_int_t
  opts : njs_opts_t
  stdout : List Char
  stderr : List Char
  deriving DecidableEq, Repr

/-- The line `printf("Usage: %s [<file>|-] [-d]\n", argv[0])`. -/
def usageLine (argv0 : CStr) : List Char :=
  "Usage: ".toList ++ argv0 ++ " [<file>|-] [-d]\n".toList

/-- The loop of `njs_get_options` over `argv[i]`, ..., `argv[argc - 1]`. -/
def optionsLoop (argv0 : CStr) : List CStr → njs_opts_t → OptionsOutcome
  | [], opts => { ret := NXT_OK, opts := opts, stdout := [], stderr := [] }
  | p :: rest, opts =>
    if positional p then
      optionsLoop argv0 rest { opts with interactive := false, file := some p }
    else if flagChar p = 'd' then
      optionsLoop argv0 rest { opts with disassemble := true }
    else if flagChar p = 'h' ∨ flagChar p = '?' then
      { ret := NXT_DONE, opts := opts, stdout := usageLine argv0, stderr := [] }
    else
      { ret := NXT_ERROR, opts := opts, stdout := usageLine argv0,
        stderr := "Unknown argument: \"".toList ++ p ++ "\"\n".toList }

/-- The function `njs_get_options(opts, argc, argv)`; `argv` holds the program
name first. -/
def njs_get_options (opts : njs_opts_t) (argv : List CStr) : OptionsOutcome :=
  optionsLoop (argv.headD []) (argv.drop 1) opts

/-- The options as `main` sets them before it calls `njs_get_options`:
`memset` to zero, then `interactive = 1`. -/
def initialOpts : njs_opts_t :=
  { file := none, disassemble := false, interactive := true }

/-- An open file as the loader sees it: what `fstat` reports and what the
successive `read` calls return. -/
structure File where
  isreg : Bool
  st_size : Nat
  reads : List ReadResult
  deriving DecidableEq, Repr

/-- The surroundings of the shell: the runtime, whether
`nxt_mem_cache_pool_create`, `njs_vm_external_add` and `nxt_mem_cache_zalloc`
succeed, the VM `njs_vm_create` returns (`none` for `NULL`), the array
`njs_vm_completions` returns, the lines `readline` returns before it returns
`NULL`, standard input, the files `open` can open, and whether `realloc` to a
given size succeeds. -/
structure World (σ : Type) where
  rt : Runtime σ
  mcp_create : Bool
  external_add : Bool
  zalloc : Bool
  njs_vm_create : Option σ
  njs_vm_completions : Option (List CStr)
  readline : List CStr
  stdin : File
  openFile : CStr → Option File
  alloc : Nat → Bool

/-- The function `njs_externals_init`, as its status: the one external is
added, then the array of external pointers is allocated. -/
def njs_externals_init {σ : Type} (w : World σ) : nxt_int_t :=
  if w.external_add = false then NXT_ERROR
  else if w.zalloc = false then NXT_ERROR
  else NXT_OK

/-- What the interactive shell leaves behind: the returned status, the text
written to standard output, the lines given to `add_history` and the calls made
into the runtime, each in order. -/
structure ShellOutcome where
  ret : nxt_int_t
  stdout : List Char
  history : List CStr
  calls : List VmCall
  deriving DecidableEq, Repr

/-- What one iteration of the shell loop prints for a line the driver has
processed with status `NXT_OK`: after the driver's own output, `*out` with
`%.*s` and a newline, then the backtrace if `njs_vm_backtrace` gives one. -/
def printResult {σ : Type} (rt : Runtime σ) (r : ScriptOutcome σ) : List Char :=
  match rt.njs_vm_backtrace r.vm with
  | none => r.stdout ++ (printf_s (r.out.getD []) ++ ['\n'])
  | some backtrace =>
    njs_print_backtrace backtrace (r.stdout ++ (printf_s (r.out.getD []) ++ ['\n']))

/-- The `for ( ;; )` loop of `njs_interactive_shell`.  The list holds the lines
`readline` returns before `NULL`. -/
def shellLoop {σ : Type} (rt : Runtime σ) (opts : njs_opts_t) : List CStr → σ → ShellOutcome
  | [], _ => { ret := NXT_OK, stdout := [], history := [], calls := [] }
  | line :: rest, vm =>
    if line.length = 0 then shellLoop rt opts rest vm
    else
      let r := njs_process_script rt vm opts line
      let o := shellLoop rt opts rest r.vm
      if r.ret ≠ NXT_OK then
        { ret := o.ret,
          stdout := r.stdout ++ "shell: failed to get retval from VM\n".toList ++ o.stdout,
          history := line :: o.history,
          calls := r.calls ++ o.calls }
      else
        { ret := o.ret,
          stdout := printResult rt r ++ o.stdout,
          history := line :: o.history,
          calls := r.calls ++ [VmCall.backtrace] ++ o.calls }

/-- The text `njs_interactive_shell` prints before its loop. -/
def shellBanner : List Char :=
  "interactive njscript\n\n".toList
    ++ "v<Tab> -> the properties of v object.\n".toList
    ++ "v.<Tab> -> all the available prototype methods.\n".toList
    ++ "type console.help() for more information\n\n".toList

/-- The function `njs_interactive_shell`.  Diagnostics written to standard
error are left out. -/
def njs_interactive_shell {σ : Type} (w : World σ) (opts : njs_opts_t) : ShellOutcome :=
  match w.njs_vm_create with
  | none => { ret := NXT_ERROR, stdout := [], history := [], calls := [] }
  | some vm =>
    match w.njs_vm_completions with
    | none => { ret := NXT_ERROR, stdout := [], history := [], calls := [] }
    | some _ =>
      let o := shellLoop w.rt opts w.readline vm
      { o with stdout := shellBanner ++ o.stdout }

/-- What `njs_process_file` leaves behind: the returned status, the text
written to standard output, whether `njs_vm_create` was called and the calls
made into the runtime. -/
structure FileOutcome where
  ret : nxt_int_t
  stdout : List Char
  vm_create : Bool
  calls : List VmCall
  deriving DecidableEq, Repr

/-- The function `njs_process_file`.  `none` stands for a `memcpy` past the end
of the script buffer, or for a `NULL` file name.  Diagnostics written to
standard error are left out. -/
def njs_process_file {σ : Type} (w : World σ) (opts : njs_opts_t) : Option FileOutcome :=
  match opts.file with
  | none => none
  | some file =>
    let fd : Option File := if file = ['-'] then some w.stdin else w.openFile file
    match fd with
    | none => some { ret := NXT_ERROR, stdout := [], vm_create := false, calls := [] }
    | some f =>
      match loadScript w.alloc f.isreg f.st_size f.reads with
      | .overflow => none
      | .error => some { ret := NXT_ERROR, stdout := [], vm_create := false, calls := [] }
      | .loaded script =>
        match w.njs_vm_create with
        | none => some { ret := NXT_ERROR, stdout := [], vm_create := true, calls := [] }
        | some vm =>
          let r := njs_process_script w.rt vm opts (script.start.take script.length)
          if r.ret ≠ NXT_OK then
            some { ret := NXT_ERROR, stdout := r.stdout, vm_create := true, calls := r.calls }
          else if opts.disassemble then
            some { ret := NXT_OK, stdout := r.stdout, vm_create := true, calls := r.calls }
          else
            some { ret := NXT_OK, stdout := printResult w.rt r, vm_create := true,
                   calls := r.calls ++ [VmCall.backtrace] }

/-- The exit status of the process. -/
inductive ExitStatus where
  | EXIT_SUCCESS
  | EXIT_FAILURE
  deriving DecidableEq, Repr

open ExitStatus

/-- Which of the two modes `main` entered. -/
inductive Started where
  | nothing
  | shell
  | file
  deriving DecidableEq, Repr

/-- What a run of the program leaves behind: the exit status, the text written
to standard output, the mode entered, the lines recorded in the history and the
calls made into the runtime. -/
structure MainOutcome where
  exit : ExitStatus
  stdout : List Char
  started : Started
  history : List CStr
  calls : List VmCall
  deriving DecidableEq, Repr

/-- The function `main(argc, argv)`.  `none` stands for an undefined result of
`njs_process_file`. -/
def main {σ : Type} (w : World σ) (argv : List CStr) : Option MainOutcome :=
  let o := njs_get_options initialOpts argv
  if o.ret ≠ NXT_OK then
    some { exit := if o.ret = NXT_DONE then EXIT_SUCCESS else EXIT_FAILURE,
           stdout := o.stdout, started := .nothing, history := [], calls := [] }
  else if w.mcp_create = false then
    some { exit := EXIT_FAILURE, stdout := o.stdout, started := .nothing, history := [],
           calls := [] }
  else if njs_externals_init w ≠ NXT_OK then
    some { exit := EXIT_FAILURE, stdout := o.stdout, started := .nothing, history := [],
           calls := [] }
  else if o.opts.interactive then
    let s := njs_interactive_shell w o.opts
    some { exit := if s.ret = NXT_OK then EXIT_SUCCESS else EXIT_FAILURE,
           stdout := o.stdout ++ s.stdout, started := .shell, history := s.history,
           calls := s.calls }
  else
    match njs_process_file w o.opts with
    | none => none
    | some f =>
      some { exit := if f.ret = NXT_OK then EXIT_SUCCESS else EXIT_FAILURE,
             stdout := o.stdout ++ f.stdout, started := .file, history := [],
             calls := f.calls }

/-- Specification side: the scripts submitted to the driver, read off the
calls of `njs_vm_compile`. -/
def submitted : List VmCall → List (List Char)
  | [] => []
  | .compile script :: rest => script :: submitted rest
  | _ :: rest => submitted rest

/-- An example runtime over a trivial state: every script but `(` compiles,
every compiled script runs and has the value `undefined`. -/
def runtimeExample : Runtime Unit :=
  { njs_vm_compile := fun _ script => (script != "(".toList, ()),
    njs_disassembler := fun _ => "STOP".toList,
    njs_vm_run := fun _ => (true, ()),
    run_stdout := fun _ => [],
    njs_vm_retval := fun _ => (some "undefined".toList, ()),
    njs_vm_exception := fun _ => ("SyntaxError".toList, ()),
    njs_vm_backtrace := fun _ => none }

/-- An example file: a regular file of three bytes, read in one chunk. -/
def fileExample : File :=
  { isreg := true, st_size := 3, reads := [.bytes "1+1".toList] }

/-- An example of surroundings in which nothing fails: the terminal delivers
the lines `1`, the empty line and `(`; standard input is `fileExample`. -/
def worldExample : World Unit :=
  { rt := runtimeExample,
    mcp_create := true,
    external_add := true,
    zalloc := true,
    njs_vm_create := some (),
    njs_vm_completions := some shellExample.completions,
    readline := ["1".toList, [], "(".toList],
    stdin := fileExample,
    openFile := fun _ => none,
    alloc := allocAlways }

/-- Options of a batch run with disassembly. -/
def optsDisassemble : njs_opts_t :=
  { file := some "-".toList, disassemble := true, interactive := false }

/-- An example frame whose name holds a NUL byte, and one whose line does not
fit a C `int`. -/
def framesOdd : List njs_backtrace_entry_t :=
  [{ name := ['a', '\x00', 'b'], line := 0 }, { name := "foo".toList, line := 2 ^ 31 }]

/-- The trace as the shell renders it after a result: what
`njs_print_backtrace` writes when `njs_vm_backtrace` gives a backtrace, nothing
when it gives `NULL`. -/
def renderedTrace (backtrace : Option (List njs_backtrace_entry_t)) : List Char :=
  match backtrace with
  | none => []
  | some frames => njs_print_backtrace frames []

/-- An example runtime whose scripts print `hi` while they run and have the
value `undefined`. -/
def runtimeLogging : Runtime Unit :=
  { njs_vm_compile := fun _ _ => (true, ()),
    njs_disassembler := fun _ => "STOP".toList,
    njs_vm_run := fun _ => (true, ()),
    run_stdout := fun _ => "hi\n".toList,
    njs_vm_retval := fun _ => (some "undefined".toList, ()),
    njs_vm_exception := fun _ => ("Error".toList, ()),
    njs_vm_backtrace := fun _ => none }

/-- The example surroundings with the runtime `runtimeLogging`. -/
def worldLogging : World Unit :=
  { worldExample with rt := runtimeLogging }

/-- An example file for a failing read: not a regular file, the first `read`
delivers `ab` and the second fails. -/
def fileFailing : File :=
  { isreg := false, st_size := 0, reads := [.bytes "ab".toList, .failed] }

/-- The example surroundings with `fileFailing` as standard input. -/
def worldFailing : World Unit :=
  { worldExample with stdin := fileFailing }

/-! ## Theorems -/

theorem strncmp_eq_isPrefixOf (name text : CStr) :
    strncmp_eq name text text.length = text.isPrefixOf name := by
  induction text generalizing name with
  | nil => cases name <;> simp [strncmp_eq]
  | cons b bs ih =>
    cases name with
    | nil => simp [strncmp_eq]
    | cons a as =>
      simp only [List.length_cons, strncmp_eq, List.isPrefixOf, ih]
      rw [Bool.beq_comm]

theorem drop_succ_of_drop_cons {α : Type} {l : List α} {i : Nat} {a : α} {r : List α}
    (h : l.drop i = a :: r) : l.drop (i + 1) = r ∧ i + 1 ≤ l.length := by
  induction l generalizing i with
  | nil => simp at h
  | cons x xs ih =>
    cases i with
    | zero =>
      simp at h
      simp [h.2]
    | succ j =>
      simp at h
      have := ih h
      simp [this.1]
      omega

theorem generator_state_zero (sh : Shell) (text : CStr) (st : Nat) (prior : njs_completion_t) :
    njs_completion_generator sh text 0 prior
      = njs_completion_generator sh text (st + 1) (resetSession text) := by
  simp [njs_completion_generator, resetSession]

theorem generator_state_succ (sh : Shell) (text : CStr) (st : Nat) (cmpl : njs_completion_t) :
    njs_completion_generator sh text (st + 1) cmpl
      = njs_completion_generator sh text 1 cmpl := by
  simp [njs_completion_generator]

theorem retsFrom_zero_fuel (sh : Shell) (text : CStr) (state : Nat) (cmpl : njs_completion_t) :
    retsFrom sh text state 0 cmpl = some [] := by
  simp [retsFrom, requestFrom]

theorem retsFrom_of_step {sh : Shell} {text : CStr} {state fuel : Nat}
    {cmpl : njs_completion_t} {r : Call} {rest : List (Option CStr)}
    (h : njs_completion_generator sh text state cmpl = some r)
    (hrest : retsFrom sh text (state + 1) fuel r.cmpl = some rest) :
    retsFrom sh text state (fuel + 1) cmpl = some (r.ret :: rest) := by
  simp only [retsFrom, requestFrom, h]
  simp only [retsFrom] at hrest
  cases hreq : requestFrom sh text (state + 1) fuel r.cmpl with
  | none => simp [hreq] at hrest
  | some rs =>
    simp [hreq] at hrest
    simp [hrest]

theorem requestFrom_succ_state (sh : Shell) (text : CStr) (k : Nat) (c : njs_completion_t)
    (a b : Nat) :
    requestFrom sh text (a + 1) k c = requestFrom sh text (b + 1) k c := by
  induction k generalizing c a b with
  | zero => simp [requestFrom]
  | succ k ih =>
    simp only [requestFrom]
    rw [generator_state_succ sh text a, generator_state_succ sh text b]
    cases njs_completion_generator sh text 1 c with
    | none => rfl
    | some r => simp only [ih r.cmpl (a + 1) (b + 1)]

theorem requestFrom_congr_first {sh : Shell} {text : CStr} {state state2 fuel : Nat}
    {cmpl cmpl2 : njs_completion_t}
    (h : njs_completion_generator sh text state cmpl
          = njs_completion_generator sh text (state2 + 1) cmpl2) :
    requestFrom sh text state fuel cmpl = requestFrom sh text (state2 + 1) fuel cmpl2 := by
  cases fuel with
  | zero => simp [requestFrom]
  | succ fuel =>
    simp only [requestFrom, h]
    cases njs_completion_generator sh text (state2 + 1) cmpl2 with
    | none => rfl
    | some r =>
      cases state with
      | zero => simp only [requestFrom_succ_state sh text fuel r.cmpl 0 (state2 + 1)]
      | succ a => simp only [requestFrom_succ_state sh text fuel r.cmpl (a + 1) (state2 + 1)]

theorem retsFrom_congr_first {sh : Shell} {text : CStr} {state state2 fuel : Nat}
    {cmpl cmpl2 : njs_completion_t}
    (h : njs_completion_generator sh text state cmpl
          = njs_completion_generator sh text (state2 + 1) cmpl2) :
    retsFrom sh text state fuel cmpl = retsFrom sh text (state2 + 1) fuel cmpl2 := by
  simp only [retsFrom, requestFrom_congr_first h]

theorem request_eq (sh : Shell) (text : CStr) (prior : njs_completion_t) (k : Nat) :
    request sh text prior k = requestFrom sh text 1 k (resetSession text) :=
  requestFrom_congr_first (generator_state_zero sh text 0 prior)

/-- A property of sessions kept by every continuation call holds along a whole
request, and so does what each call establishes. -/
theorem requestFrom_forall {sh : Shell} {text : CStr} (Inv : njs_completion_t → Prop)
    (Q : Call → Prop)
    (hstep : ∀ (c : njs_completion_t) (st : Nat) (r : Call), Inv c →
      njs_completion_generator sh text (st + 1) c = some r → Inv r.cmpl ∧ Q r)
    (k : Nat) (c : njs_completion_t) (st : Nat) (calls : List Call) (hc : Inv c)
    (hreq : requestFrom sh text (st + 1) k c = some calls) :
    ∀ r ∈ calls, Q r := by
  induction k generalizing c st calls with
  | zero =>
    simp only [requestFrom, Option.some.injEq] at hreq
    subst hreq
    simp
  | succ k ih =>
    simp only [requestFrom] at hreq
    cases hg : njs_completion_generator sh text (st + 1) c with
    | none => simp [hg] at hreq
    | some r0 =>
      simp only [hg] at hreq
      cases hr : requestFrom sh text (st + 1 + 1) k r0.cmpl with
      | none => simp [hr] at hreq
      | some rs =>
        simp only [hr, Option.some.injEq] at hreq
        subst hreq
        have h1 := hstep c st r0 hc hg
        intro r hmem
        simp only [List.mem_cons] at hmem
        rcases hmem with e | hmem
        · rw [e]; exact h1.2
        · exact ih r0.cmpl (st + 1) rs h1.1 hr r hmem

/-- When the rets of a request are known, the request itself has a result. -/
theorem request_of_rets {sh : Shell} {text : CStr} {prior : njs_completion_t} {k : Nat}
    {rets : List (Option CStr)} (h : requestRets sh text prior k = some rets) :
    ∃ calls, request sh text prior k = some calls ∧ calls.map Call.ret = rets := by
  unfold requestRets at h
  cases hr : request sh text prior k with
  | none => simp [hr] at h
  | some calls =>
    simp only [hr, Option.map_some', Option.some.injEq] at h
    exact ⟨calls, rfl, h⟩

/-- GLOBAL phase, array not exhausted, the next name is returned. -/
theorem generator_global_hit (st : Nat) {sh : Shell} {text : CStr} {cmpl : njs_completion_t}
    {name : CStr} {rest : List CStr}
    (hphase : cmpl.phase = NJS_COMPLETION_GLOBAL) (hlen : cmpl.length = text.length)
    (hdrop : sh.completions.drop cmpl.index = name :: rest)
    (helig : (!dotted name && text.isPrefixOf name) = true) :
    njs_completion_generator sh text (st + 1) cmpl
      = some { ret := some name, cmpl := { cmpl with index := cmpl.index + 1 },
               scanned := false } := by
  have hle : ¬ sh.completions.length < cmpl.index := by
    intro hlt
    have : sh.completions.drop cmpl.index = [] := List.drop_eq_nil_of_le (by omega)
    simp [this] at hdrop
  simp only [Bool.and_eq_true, Bool.not_eq_true', ← strncmp_eq_isPrefixOf, ← hlen] at helig
  simp [njs_completion_generator, hphase, hle, hdrop, globalLoop, helig.1, helig.2]

/-- GLOBAL phase, the next name is skipped: the call behaves as from the next index. -/
theorem generator_global_skip (st : Nat) {sh : Shell} {text : CStr} {cmpl : njs_completion_t}
    {name : CStr} {rest : List CStr}
    (hphase : cmpl.phase = NJS_COMPLETION_GLOBAL) (hlen : cmpl.length = text.length)
    (hdrop : sh.completions.drop cmpl.index = name :: rest)
    (helig : (!dotted name && text.isPrefixOf name) = false) :
    njs_completion_generator sh text (st + 1) cmpl
      = njs_completion_generator sh text (st + 1) { cmpl with index := cmpl.index + 1 } := by
  have h2 := drop_succ_of_drop_cons hdrop
  have hle : ¬ sh.completions.length < cmpl.index := by omega
  have hle2 : ¬ sh.completions.length < cmpl.index + 1 := by omega
  rw [← strncmp_eq_isPrefixOf, ← hlen] at helig
  simp only [njs_completion_generator, hphase, hle, hle2, hdrop, h2.1, globalLoop,
    if_false, Nat.succ_ne_zero]
  cases hd : dotted name with
  | true => simp
  | false =>
    simp [hd] at helig
    simp [helig]

theorem remainingVars_succ {sh : Shell} {lhe : Nat} {var : CStr} {rest : List CStr}
    (h : remainingVars sh lhe = var :: rest) : remainingVars sh (lhe + 1) = rest := by
  unfold remainingVars at h ⊢
  cases hs : sh.scope with
  | none => simp [hs] at h
  | some vars =>
    simp only [hs] at h ⊢
    exact (drop_succ_of_drop_cons h).1

theorem generator_global_exhausted_eq (sh : Shell) (text : CStr) (st : Nat)
    (cmpl : njs_completion_t)
    (hphase : cmpl.phase = NJS_COMPLETION_GLOBAL)
    (hdrop : sh.completions.drop cmpl.index = [])
    (hidx : cmpl.index ≤ sh.completions.length) :
    njs_completion_generator sh text (st + 1) cmpl
      = match scopeLoop text cmpl.length (remainingVars sh cmpl.lhe) cmpl.lhe with
        | (some var, lhe) =>
          some { ret := some var, cmpl := { cmpl with lhe := lhe }, scanned := false }
        | (none, lhe) =>
          if cmpl.length = 0 then
            some { ret := none, cmpl := { cmpl with lhe := lhe }, scanned := false }
          else
            suffixPhase sh text
              { cmpl with index := 0, lhe := lhe, phase := NJS_COMPLETION_SUFFIX } := by
  have hle : ¬ sh.completions.length < cmpl.index := by omega
  simp only [njs_completion_generator, hphase, hle, hdrop, globalLoop, if_false,
    Nat.succ_ne_zero, remainingVars]

/-- GLOBAL phase, array exhausted, the next scope variable is returned. -/
theorem generator_scope_hit (st : Nat) {sh : Shell} {text : CStr} {cmpl : njs_completion_t}
    {var : CStr} {rest : List CStr}
    (hphase : cmpl.phase = NJS_COMPLETION_GLOBAL) (hlen : cmpl.length = text.length)
    (hdrop : sh.completions.drop cmpl.index = [])
    (hidx : cmpl.index ≤ sh.completions.length)
    (hvars : remainingVars sh cmpl.lhe = var :: rest)
    (helig : text.isPrefixOf var = true) :
    njs_completion_generator sh text (st + 1) cmpl
      = some { ret := some var, cmpl := { cmpl with lhe := cmpl.lhe + 1 },
               scanned := false } := by
  rw [generator_global_exhausted_eq sh text st cmpl hphase hdrop hidx, hvars]
  rw [← strncmp_eq_isPrefixOf, ← hlen] at helig
  simp [scopeLoop, helig]

/-- GLOBAL phase, array exhausted, the next scope variable is skipped. -/
theorem generator_scope_skip (st : Nat) {sh : Shell} {text : CStr} {cmpl : njs_completion_t}
    {var : CStr} {rest : List CStr}
    (hphase : cmpl.phase = NJS_COMPLETION_GLOBAL) (hlen : cmpl.length = text.length)
    (hdrop : sh.completions.drop cmpl.index = [])
    (hidx : cmpl.index ≤ sh.completions.length)
    (hvars : remainingVars sh cmpl.lhe = var :: rest)
    (helig : text.isPrefixOf var = false) :
    njs_completion_generator sh text (st + 1) cmpl
      = njs_completion_generator sh text (st + 1) { cmpl with lhe := cmpl.lhe + 1 } := by
  rw [generator_global_exhausted_eq sh text st cmpl hphase hdrop hidx,
    generator_global_exhausted_eq sh text st { cmpl with lhe := cmpl.lhe + 1 } hphase hdrop hidx,
    hvars]
  rw [← strncmp_eq_isPrefixOf, ← hlen] at helig
  simp only [remainingVars_succ hvars, scopeLoop, helig]
  rfl

/-- GLOBAL phase, array and scope exhausted. -/
theorem generator_exhausted (st : Nat) {sh : Shell} {text : CStr} {cmpl : njs_completion_t}
    (hphase : cmpl.phase = NJS_COMPLETION_GLOBAL)
    (hdrop : sh.completions.drop cmpl.index = [])
    (hidx : cmpl.index ≤ sh.completions.length)
    (hvars : remainingVars sh cmpl.lhe = []) :
    njs_completion_generator sh text (st + 1) cmpl
      = if cmpl.length = 0 then
          some { ret := none, cmpl := cmpl, scanned := false }
        else
          suffixPhase sh text { cmpl with index := 0, phase := NJS_COMPLETION_SUFFIX } := by
  rw [generator_global_exhausted_eq sh text st cmpl hphase hdrop hidx, hvars]
  simp [scopeLoop]

/-- The GLOBAL phase of a request: the eligible names not yet visited, then the
eligible scope variables not yet visited, are returned one per call; after them
the request continues as it does from a session whose two sources are
exhausted. -/
theorem retsFrom_global {sh : Shell} {text : CStr} {k : Nat} {tail : List (Option CStr)}
    (htail : ∀ (cmpl : njs_completion_t) (st : Nat), GlobalAt sh text cmpl [] [] →
      retsFrom sh text (st + 1) k cmpl = some tail)
    (rest vars : List CStr) (cmpl : njs_completion_t) (st : Nat)
    (h : GlobalAt sh text cmpl rest vars) :
    retsFrom sh text (st + 1)
        ((rest.filter (fun name => !dotted name && text.isPrefixOf name)).length
          + (vars.filter (fun var => text.isPrefixOf var)).length + k) cmpl
      = some (((rest.filter (fun name => !dotted name && text.isPrefixOf name))
          ++ (vars.filter (fun var => text.isPrefixOf var))).map some ++ tail) := by
  induction rest generalizing cmpl st with
  | cons name rest ih =>
    have h2 := drop_succ_of_drop_cons h.drop
    have hnext : GlobalAt sh text { cmpl with index := cmpl.index + 1 } rest vars :=
      ⟨h.phase, h.length, h2.1, h2.2, h.vars⟩
    cases helig : (!dotted name && text.isPrefixOf name) with
    | true =>
      have hstep := generator_global_hit st h.phase h.length h.drop helig
      have := retsFrom_of_step hstep (ih _ (st + 1) hnext)
      simp only [List.filter_cons, helig, if_true, List.length_cons, List.cons_append,
        List.map_cons]
      rw [← this]
      congr 1
      omega
    | false =>
      have hstep := generator_global_skip st h.phase h.length h.drop helig
      simp only [List.filter_cons, helig]
      rw [retsFrom_congr_first hstep]
      exact ih _ st hnext
  | nil =>
    induction vars generalizing cmpl st with
    | cons var vars ihv =>
      have hnext : GlobalAt sh text { cmpl with lhe := cmpl.lhe + 1 } [] vars :=
        ⟨h.phase, h.length, h.drop, h.index, remainingVars_succ h.vars⟩
      cases helig : text.isPrefixOf var with
      | true =>
        have hstep := generator_scope_hit st h.phase h.length h.drop h.index
          h.vars helig
        have := retsFrom_of_step hstep (ihv _ (st + 1) hnext)
        simp only [List.filter_cons, helig, if_true, List.length_cons, List.filter_nil,
          List.length_nil, List.nil_append, List.map_cons, List.cons_append] at this ⊢
        rw [← this]
        congr 1
        omega
      | false =>
        have hstep := generator_scope_skip st h.phase h.length h.drop h.index
          h.vars helig
        simp only [List.filter_cons, helig]
        rw [retsFrom_congr_first hstep]
        exact ihv _ st hnext
    | nil =>
      simpa using htail cmpl st h

theorem getD_ne_of_not_mem {l : List Char} {c d : Char} (hc : c ∉ l) (hd : d ≠ c) (i : Nat) :
    l.getD i d ≠ c := by
  induction l generalizing i with
  | nil => exact hd
  | cons x xs ih =>
    have hx : x ≠ c := fun e => hc (by simp [e])
    have hxs : c ∉ xs := fun e => hc (by simp [e])
    cases i with
    | zero => exact hx
    | succ j => exact ih hxs j

theorem getD_append_length (pre suf : List Char) (c d : Char) :
    (pre ++ c :: suf).getD pre.length d = c := by
  induction pre with
  | nil => rfl
  | cons x xs ih => exact ih

theorem getD_append_after (pre suf : List Char) (c d : Char) (j : Nat) :
    (pre ++ c :: suf).getD (pre.length + (j + 1)) d = suf.getD j d := by
  induction pre with
  | nil => simp only [List.nil_append, List.length_nil, Nat.zero_add, List.getD_cons_succ]
  | cons x xs ih =>
    have : (x :: xs).length + (j + 1) = (xs.length + (j + 1)) + 1 := by
      simp only [List.length_cons]; omega
    rw [this, List.cons_append, List.getD_cons_succ]
    exact ih

theorem nul_ne_dot : ('\x00' : Char) ≠ '.' := by decide

/-- On a text without `'.'` the scan ends on a byte that is not `'.'`. -/
theorem scanBack_no_dot {text : CStr} (h : '.' ∉ text) (p len : Nat) :
    text.getD (scanBack text p len).1 '\x00' ≠ '.' := by
  induction p generalizing len with
  | zero => exact getD_ne_of_not_mem h nul_ne_dot 0
  | succ p ih =>
    simp only [scanBack, getD_ne_of_not_mem h nul_ne_dot (p + 1), ne_eq, not_false_eq_true,
      if_true]
    exact ih (len + 1)

/-- The scan stops on the last `'.'` of the text. -/
theorem scanBack_last_dot (pre suf : CStr) (h : '.' ∉ suf) (j len : Nat) :
    scanBack (pre ++ '.' :: suf) (pre.length + j) len = (pre.length, len + j) := by
  induction j generalizing len with
  | zero =>
    cases hp : pre.length with
    | zero => simp [scanBack]
    | succ p =>
      have := getD_append_length pre suf '.' '\x00'
      rw [hp] at this
      simp only [Nat.add_zero, scanBack, this, ne_eq, not_true_eq_false, if_false]
  | succ j ih =>
    have hne := getD_ne_of_not_mem h nul_ne_dot j
    rw [← getD_append_after pre suf '.' '\x00' j] at hne
    have : pre.length + (j + 1) = (pre.length + j) + 1 := by omega
    rw [this, scanBack, ← this, if_pos hne, ih (len + 1)]
    congr 1
    omega

/-- SUFFIX phase on a non-empty text without `'.'`: `NULL`, session unchanged. -/
theorem suffixPhase_no_dot (sh : Shell) {text : CStr} {cmpl : njs_completion_t}
    (hdot : '.' ∉ text) (hlen : cmpl.length = text.length) (hne : text ≠ []) :
    suffixPhase sh text cmpl = some { ret := none, cmpl := cmpl, scanned := true } := by
  have h0 : text.length ≠ 0 := by
    intro e
    exact hne (List.length_eq_zero.mp e)
  have hguard : ¬ (cmpl.length = 0 ∨ text.length < cmpl.length - 1) := by
    rw [hlen]; omega
  simp only [suffixPhase, hguard, if_false, scanBack_no_dot hdot, ne_eq, not_false_eq_true,
    if_true]

/-- SUFFIX phase on a text whose last `'.'` follows `pre`: the dotted scan. -/
theorem suffixPhase_dot (sh : Shell) (pre suf : CStr) {cmpl : njs_completion_t}
    (hdot : '.' ∉ suf) (hlen : cmpl.length = (pre ++ '.' :: suf).length) :
    suffixPhase sh (pre ++ '.' :: suf) cmpl
      = if sh.completions.length < cmpl.index then none
        else
          match suffixLoop ('.' :: suf) (suf.length + 1)
              (sh.completions.drop cmpl.index) cmpl.index with
          | (some name, index) =>
            some { ret := some (pre ++ name), cmpl := { cmpl with index := index },
                   scanned := true }
          | (none, index) =>
            some { ret := none, cmpl := { cmpl with index := index }, scanned := true } := by
  have hl : (pre ++ '.' :: suf).length = pre.length + suf.length + 1 := by
    simp only [List.length_append, List.length_cons]; omega
  have hguard : ¬ (cmpl.length = 0 ∨ (pre ++ '.' :: suf).length < cmpl.length - 1) := by
    rw [hlen, hl]; omega
  have hscan : scanBack (pre ++ '.' :: suf) (cmpl.length - 1) 1
      = (pre.length, suf.length + 1) := by
    have : cmpl.length - 1 = pre.length + suf.length := by rw [hlen, hl]; omega
    rw [this, scanBack_last_dot pre suf hdot suf.length 1]
    congr 1
    omega
  simp only [suffixPhase, hguard, if_false, hscan, getD_append_length, ne_eq,
    not_true_eq_false, List.drop_left, List.take_left]
  split
  · rfl
  · split
    · rename_i name index heq
      simp only [Option.some.injEq, Call.mk.injEq, and_true, true_and]
      apply List.take_of_length_le
      simp only [List.length_append]
      omega
    · rfl

theorem generator_suffix_eq (sh : Shell) (text : CStr) (st : Nat) {cmpl : njs_completion_t}
    (hphase : cmpl.phase = NJS_COMPLETION_SUFFIX) :
    njs_completion_generator sh text (st + 1) cmpl = suffixPhase sh text cmpl := by
  simp only [njs_completion_generator, Nat.succ_ne_zero, if_false, hphase]

/-- The SUFFIX phase of a request: the dotted names not yet visited that extend
the typed suffix are returned one per call, each behind the typed prefix, and
then `NULL`. -/
theorem retsFrom_suffix {sh : Shell} (pre suf : CStr) (hdot : '.' ∉ suf)
    (rest : List CStr) (cmpl : njs_completion_t) (st : Nat)
    (h : SuffixAt sh (pre ++ '.' :: suf) cmpl rest) :
    retsFrom sh (pre ++ '.' :: suf) (st + 1)
        ((dottedMatches rest ('.' :: suf)).length + 1) cmpl
      = some (((dottedMatches rest ('.' :: suf)).map (fun name => pre ++ name)).map some
          ++ [none]) := by
  have hle : ¬ sh.completions.length < cmpl.index := by have := h.index; omega
  have hsl : ('.' :: suf).length = suf.length + 1 := rfl
  induction rest generalizing cmpl st with
  | nil =>
    have hstep : njs_completion_generator sh (pre ++ '.' :: suf) (st + 1) cmpl
        = some { ret := none, cmpl := { cmpl with index := cmpl.index + 1 },
                 scanned := true } := by
      rw [generator_suffix_eq sh _ st h.phase, suffixPhase_dot sh pre suf hdot h.length,
        if_neg hle, h.drop]
      rfl
    have := retsFrom_of_step hstep (retsFrom_zero_fuel sh _ (st + 1 + 1) _)
    simpa [dottedMatches] using this
  | cons name rest ih =>
    have h2 := drop_succ_of_drop_cons h.drop
    have hnext : SuffixAt sh (pre ++ '.' :: suf) { cmpl with index := cmpl.index + 1 } rest :=
      ⟨h.phase, h.length, h2.1, h2.2⟩
    have hle2 : ¬ sh.completions.length < cmpl.index + 1 := by have := h2.2; omega
    cases helig : (dotted name && ('.' :: suf).isPrefixOf name) with
    | true =>
      have he := helig
      rw [← strncmp_eq_isPrefixOf, hsl] at he
      simp only [Bool.and_eq_true] at he
      have hstep : njs_completion_generator sh (pre ++ '.' :: suf) (st + 1) cmpl
          = some { ret := some (pre ++ name), cmpl := { cmpl with index := cmpl.index + 1 },
                   scanned := true } := by
        rw [generator_suffix_eq sh _ st h.phase, suffixPhase_dot sh pre suf hdot h.length,
          if_neg hle, h.drop]
        simp [suffixLoop, he.1, he.2]
      have := retsFrom_of_step hstep (ih _ (st + 1) hnext hle2)
      simp only [dottedMatches, List.filter_cons, helig, if_true, List.length_cons,
        List.map_cons, List.cons_append] at this ⊢
      exact this
    | false =>
      have he := helig
      rw [← strncmp_eq_isPrefixOf, hsl] at he
      have hstep : njs_completion_generator sh (pre ++ '.' :: suf) (st + 1) cmpl
          = njs_completion_generator sh (pre ++ '.' :: suf) (st + 1)
              { cmpl with index := cmpl.index + 1 } := by
        rw [generator_suffix_eq sh _ st h.phase, generator_suffix_eq sh _ st hnext.phase,
          suffixPhase_dot sh pre suf hdot h.length,
          suffixPhase_dot sh pre suf hdot hnext.length, if_neg hle, if_neg hle2, h.drop, h2.1]
        cases hd : dotted name with
        | false => simp [suffixLoop, hd]
        | true =>
          simp only [hd, Bool.true_and] at he
          simp [suffixLoop, hd, he]
      simp only [dottedMatches, List.filter_cons, helig]
      rw [retsFrom_congr_first hstep]
      exact ih _ st hnext hle2

theorem globalAt_reset (sh : Shell) (text : CStr) :
    GlobalAt sh text (resetSession text) sh.completions (remainingVars sh 0) :=
  ⟨rfl, rfl, rfl, Nat.zero_le _, rfl⟩

theorem scopeMatches_eq (sh : Shell) (text : CStr) :
    scopeMatches sh.scope text
      = (remainingVars sh 0).filter (fun var => text.isPrefixOf var) := by
  unfold scopeMatches remainingVars
  cases sh.scope <;> simp

theorem requestRets_eq (sh : Shell) (text : CStr) (prior : njs_completion_t) (k : Nat) :
    requestRets sh text prior k = retsFrom sh text 1 k (resetSession text) := by
  have : requestRets sh text prior k = retsFrom sh text 0 k prior := rfl
  rw [this]
  exact retsFrom_congr_first (generator_state_zero sh text 0 prior)

/-- Empty text: once both sources are exhausted every call returns `NULL`. -/
theorem retsFrom_exhausted_empty {sh : Shell} (m : Nat) (cmpl : njs_completion_t) (st : Nat)
    (h : GlobalAt sh [] cmpl [] []) :
    retsFrom sh [] (st + 1) m cmpl = some (List.replicate m none) := by
  induction m generalizing st with
  | zero => exact retsFrom_zero_fuel sh [] (st + 1) cmpl
  | succ m ih =>
    have hstep : njs_completion_generator sh [] (st + 1) cmpl = _ :=
      generator_exhausted st h.phase h.drop h.index h.vars
    rw [if_pos (by simpa using h.length)] at hstep
    have := retsFrom_of_step hstep (ih (st + 1))
    simpa [List.replicate_succ] using this

/-- Non-empty text without `'.'`: in the SUFFIX phase every call returns `NULL`. -/
theorem retsFrom_suffix_no_dot {sh : Shell} {text : CStr} (hdot : '.' ∉ text) (hne : text ≠ [])
    (m : Nat) (cmpl : njs_completion_t) (st : Nat)
    (hphase : cmpl.phase = NJS_COMPLETION_SUFFIX) (hlen : cmpl.length = text.length) :
    retsFrom sh text (st + 1) m cmpl = some (List.replicate m none) := by
  induction m generalizing st with
  | zero => exact retsFrom_zero_fuel sh text (st + 1) cmpl
  | succ m ih =>
    have hstep : njs_completion_generator sh text (st + 1) cmpl
        = some { ret := none, cmpl := cmpl, scanned := true } := by
      rw [generator_suffix_eq sh text st hphase, suffixPhase_no_dot sh hdot hlen hne]
    have := retsFrom_of_step hstep (ih (st + 1))
    simpa [List.replicate_succ] using this

/-- Text without `'.'`: once both sources are exhausted every call returns `NULL`. -/
theorem retsFrom_exhausted_no_dot {sh : Shell} {text : CStr} (hdot : '.' ∉ text)
    (m : Nat) (cmpl : njs_completion_t) (st : Nat) (h : GlobalAt sh text cmpl [] []) :
    retsFrom sh text (st + 1) m cmpl = some (List.replicate m none) := by
  cases text with
  | nil => exact retsFrom_exhausted_empty m cmpl st h
  | cons a as =>
    have hne : a :: as ≠ [] := by simp
    have hl : ¬ cmpl.length = 0 := by rw [h.length]; simp
    have hstep : njs_completion_generator sh (a :: as) (st + 1) cmpl
        = njs_completion_generator sh (a :: as) (st + 1)
            { cmpl with index := 0, phase := NJS_COMPLETION_SUFFIX } := by
      rw [generator_exhausted st h.phase h.drop h.index h.vars, if_neg hl,
        generator_suffix_eq sh (a :: as) st rfl]
    rw [retsFrom_congr_first hstep]
    exact retsFrom_suffix_no_dot hdot hne m _ st rfl h.length

/-- The rets of a request for a text without `'.'`, with `m` calls more than
there are candidates. -/
theorem requestRets_no_dot (sh : Shell) (text : CStr) (prior : njs_completion_t)
    (hdot : '.' ∉ text) (m : Nat) :
    requestRets sh text prior
        ((globalMatches sh.completions text ++ scopeMatches sh.scope text).length + m)
      = some ((globalMatches sh.completions text ++ scopeMatches sh.scope text).map some
          ++ List.replicate m none) := by
  rw [requestRets_eq, scopeMatches_eq, List.length_append]
  exact retsFrom_global (fun cmpl st h => retsFrom_exhausted_no_dot hdot m cmpl st h)
    sh.completions (remainingVars sh 0) (resetSession text) 0 (globalAt_reset sh text)

/-- Empty text: a continuation call from a GLOBAL session stays in the GLOBAL
phase and does not run the backward scan. -/
theorem generator_empty_step (sh : Shell) (c : njs_completion_t) (st : Nat) (r : Call)
    (hinv : c.phase = NJS_COMPLETION_GLOBAL ∧ c.length = 0)
    (hg : njs_completion_generator sh [] (st + 1) c = some r) :
    (r.cmpl.phase = NJS_COMPLETION_GLOBAL ∧ r.cmpl.length = 0)
      ∧ (r.cmpl.phase = NJS_COMPLETION_GLOBAL ∧ r.scanned = false) := by
  obtain ⟨hp, hl⟩ := hinv
  simp only [njs_completion_generator, Nat.succ_ne_zero, if_false, hp, hl, if_true] at hg
  split at hg
  · simp at hg
  · split at hg
    · simp only [Option.some.injEq] at hg
      subst hg
      simp [hp, hl]
    · split at hg
      · simp only [Option.some.injEq] at hg
        subst hg
        simp [hp, hl]
      · simp only [Option.some.injEq] at hg
        subst hg
        simp [hp, hl]

/-- Non-empty text without `'.'`: a continuation call that returns `NULL` leaves
the session in the SUFFIX phase. -/
theorem generator_no_dot_step (sh : Shell) {text : CStr} (hdot : '.' ∉ text) (hne : text ≠ [])
    (c : njs_completion_t) (st : Nat) (r : Call)
    (hinv : c.length = text.length)
    (hg : njs_completion_generator sh text (st + 1) c = some r) :
    r.cmpl.length = text.length
      ∧ (r.ret = none → r.cmpl.phase = NJS_COMPLETION_SUFFIX) := by
  have h0 : ¬ c.length = 0 := by
    rw [hinv]
    intro e
    exact hne (List.length_eq_zero.mp e)
  cases hp : c.phase with
  | NJS_COMPLETION_SUFFIX =>
    rw [generator_suffix_eq sh text st hp, suffixPhase_no_dot sh hdot hinv hne] at hg
    simp only [Option.some.injEq] at hg
    subst hg
    exact ⟨hinv, fun _ => hp⟩
  | NJS_COMPLETION_GLOBAL =>
    simp only [njs_completion_generator, Nat.succ_ne_zero, if_false, hp, h0] at hg
    split at hg
    · simp at hg
    · split at hg
      · simp only [Option.some.injEq] at hg
        subst hg
        simp [hinv]
      · split at hg
        · simp only [Option.some.injEq] at hg
          subst hg
          simp [hinv]
        · rw [suffixPhase_no_dot sh hdot (by exact hinv) hne] at hg
          simp only [Option.some.injEq] at hg
          subst hg
          simp [hinv]

/-- The rets of a request for a text whose last `'.'` follows `pre`. -/
theorem requestRets_dot (sh : Shell) (pre suf : CStr) (prior : njs_completion_t)
    (hdot : '.' ∉ suf) :
    requestRets sh (pre ++ '.' :: suf) prior
        ((globalMatches sh.completions (pre ++ '.' :: suf)
            ++ scopeMatches sh.scope (pre ++ '.' :: suf)).length
          + ((dottedMatches sh.completions ('.' :: suf)).length + 1))
      = some ((globalMatches sh.completions (pre ++ '.' :: suf)
            ++ scopeMatches sh.scope (pre ++ '.' :: suf)).map some
          ++ (((dottedMatches sh.completions ('.' :: suf)).map (fun name => pre ++ name)).map
              some ++ [none])) := by
  rw [requestRets_eq, scopeMatches_eq, List.length_append]
  refine retsFrom_global (fun cmpl st h => ?_)
    sh.completions (remainingVars sh 0) (resetSession (pre ++ '.' :: suf)) 0
    (globalAt_reset sh (pre ++ '.' :: suf))
  have hl : ¬ cmpl.length = 0 := by rw [h.length]; simp
  have hstep : njs_completion_generator sh (pre ++ '.' :: suf) (st + 1) cmpl
      = njs_completion_generator sh (pre ++ '.' :: suf) (st + 1)
          { cmpl with index := 0, phase := NJS_COMPLETION_SUFFIX } := by
    rw [generator_exhausted st h.phase h.drop h.index h.vars, if_neg hl,
      generator_suffix_eq sh (pre ++ '.' :: suf) st rfl]
  rw [retsFrom_congr_first hstep]
  exact retsFrom_suffix pre suf hdot sh.completions _ st ⟨rfl, h.length, rfl, Nat.zero_le _⟩

/-- A text that contains `'.'` splits at its last `'.'`. -/
theorem split_last_dot {text : CStr} (h : '.' ∈ text) :
    ∃ pre suf, text = pre ++ '.' :: suf ∧ '.' ∉ suf := by
  induction text with
  | nil => simp at h
  | cons x xs ih =>
    by_cases hx : '.' ∈ xs
    · obtain ⟨pre, suf, e, hs⟩ := ih hx
      exact ⟨x :: pre, suf, by simp [e], hs⟩
    · have : x = '.' := by
        simp only [List.mem_cons] at h
        rcases h with e | e
        · exact e.symm
        · exact absurd e hx
      exact ⟨[], xs, by simp [this], hx⟩

theorem mem_of_isPrefixOf {text name : CStr} {c : Char} (hc : c ∈ text)
    (hp : text.isPrefixOf name = true) : c ∈ name := by
  induction text generalizing name with
  | nil => simp at hc
  | cons b bs ih =>
    cases name with
    | nil => simp [List.isPrefixOf] at hp
    | cons a as =>
      simp only [List.isPrefixOf, Bool.and_eq_true, beq_iff_eq] at hp
      simp only [List.mem_cons] at hc ⊢
      rcases hc with e | hmem
      · exact Or.inl (e.trans hp.1)
      · exact Or.inr (ih hmem hp.2)

theorem scopeMatches_eq_filter (scope : Option (List CStr)) (text : CStr) :
    scopeMatches scope text = (scopeNames scope).filter (fun var => text.isPrefixOf var) := by
  cases scope <;> rfl

/-! ## The claims about the completion generator -/

/-- C1: for a text without `'.'`, the state-0 call and its continuation calls
return, one per call, the source names that do not start with `'.'` and have the
text as a prefix, in array order, then the in-scope variable names that have
the text as a prefix, in enumeration order, and then, for the first time,
`NULL`. -/
theorem completion_global_exhaustive (sh : Shell) (text : CStr) (prior : njs_completion_t)
    (hdot : '.' ∉ text) :
    requestRets sh text prior
        ((globalMatches sh.completions text ++ scopeMatches sh.scope text).length + 1)
      = some ((globalMatches sh.completions text ++ scopeMatches sh.scope text).map some
          ++ [none]) :=
  requestRets_no_dot sh text prior hdot 1

/-- C1, at the source `console`, `.log`, `constructor`, `.help` with the scope
`count`, `x` and the text `co`: `console`, `constructor`, `count`, then `NULL`. -/
theorem completion_global_exhaustive_witness :
    '.' ∉ "co".toList
      ∧ requestRets shellScoped "co".toList cmplZero
          ((globalMatches shellScoped.completions "co".toList
            ++ scopeMatches shellScoped.scope "co".toList).length + 1)
        = some ((globalMatches shellScoped.completions "co".toList
            ++ scopeMatches shellScoped.scope "co".toList).map some ++ [none])
      ∧ globalMatches shellScoped.completions "co".toList
          ++ scopeMatches shellScoped.scope "co".toList
        = ["console".toList, "constructor".toList, "count".toList] :=
  ⟨by decide, completion_global_exhaustive shellScoped "co".toList cmplZero (by decide),
    by decide⟩

/-- C2: for a text whose last `'.'` is at position `k`, the request returns,
one per call, the global and scope candidates and then `text[0..k) ++ name` for
every source name that starts with `'.'` and has `text[k..]` as a prefix, each
once and in array order over the whole source, and then `NULL`. -/
theorem suffix_reconstruction (sh : Shell) (text : CStr) (prior : njs_completion_t) (k : Nat)
    (hk : text[k]? = some '.') (hlast : '.' ∉ text.drop (k + 1)) :
    requestRets sh text prior
        ((globalMatches sh.completions text ++ scopeMatches sh.scope text).length
          + ((dottedMatches sh.completions (text.drop k)).length + 1))
      = some ((globalMatches sh.completions text ++ scopeMatches sh.scope text).map some
          ++ (((dottedMatches sh.completions (text.drop k)).map
                (fun name => text.take k ++ name)).map some ++ [none])) := by
  obtain ⟨hlt, hget⟩ := List.getElem?_eq_some.mp hk
  have hdrop : text.drop k = '.' :: text.drop (k + 1) := by
    rw [List.drop_eq_getElem_cons hlt, hget]
  have htext : text.take k ++ '.' :: text.drop (k + 1) = text := by
    rw [← hdrop, List.take_append_drop]
  have := requestRets_dot sh (text.take k) (text.drop (k + 1)) prior hlast
  rw [htext] at this
  rw [hdrop]
  exact this

/-- C2, at the source `console`, `.log`, `.help` without scope and the text
`console.h`: `console.help`, then `NULL`. -/
theorem suffix_reconstruction_witness :
    ("console.h".toList[7]? = some '.' ∧ '.' ∉ "console.h".toList.drop (7 + 1))
      ∧ requestRets shellExample "console.h".toList cmplZero
          ((globalMatches shellExample.completions "console.h".toList
              ++ scopeMatches shellExample.scope "console.h".toList).length
            + ((dottedMatches shellExample.completions ("console.h".toList.drop 7)).length + 1))
        = some ((globalMatches shellExample.completions "console.h".toList
              ++ scopeMatches shellExample.scope "console.h".toList).map some
            ++ (((dottedMatches shellExample.completions ("console.h".toList.drop 7)).map
                  (fun name => "console.h".toList.take 7 ++ name)).map some ++ [none]))
      ∧ requestRets shellExample "console.h".toList cmplZero 2
        = some [some "console.help".toList, none] :=
  ⟨⟨by decide, by decide⟩,
    suffix_reconstruction shellExample "console.h".toList cmplZero 7 (by decide) (by decide),
    by decide⟩

/-- C3, as stated, fails: on a source that lists `.toString` twice the request
for `console.t` returns `console.toString` twice. -/
theorem candidates_repeat_counterexample :
    requestRets shellRepeated "console.t".toList cmplZero 3
        = some [some "console.toString".toList, some "console.toString".toList, none]
      ∧ ¬ ["console.toString".toList, "console.toString".toList].Nodup := by
  constructor
  · decide
  · decide

/-- C6: a request for the empty text returns the global and scope candidates
and from then on `NULL`; after every call the phase is GLOBAL, and no call runs
the backward separator scan. -/
theorem empty_token_termination (sh : Shell) (prior : njs_completion_t) (m : Nat) :
    ∃ calls : List Call,
      request sh [] prior
          ((globalMatches sh.completions [] ++ scopeMatches sh.scope []).length + (1 + m))
        = some calls
      ∧ calls.map Call.ret
        = (globalMatches sh.completions [] ++ scopeMatches sh.scope []).map some
            ++ List.replicate (1 + m) none
      ∧ ∀ r ∈ calls, r.cmpl.phase = NJS_COMPLETION_GLOBAL ∧ r.scanned = false := by
  obtain ⟨calls, hreq, hrets⟩ :=
    request_of_rets (requestRets_no_dot sh [] prior (by simp) (1 + m))
  refine ⟨calls, hreq, hrets, ?_⟩
  rw [request_eq] at hreq
  exact requestFrom_forall
    (fun c => c.phase = NJS_COMPLETION_GLOBAL ∧ c.length = 0)
    (fun r => r.cmpl.phase = NJS_COMPLETION_GLOBAL ∧ r.scanned = false)
    (generator_empty_step sh) _ (resetSession []) 0 calls ⟨rfl, rfl⟩ hreq

/-- C7: for a non-empty text without `'.'`, the request returns the global and
scope candidates and from then on `NULL`; every call that returns `NULL` leaves
the session in the SUFFIX phase, so the GLOBAL phase is not entered again. -/
theorem no_separator_rejection_permanent (sh : Shell) (text : CStr)
    (prior : njs_completion_t) (m : Nat) (hne : text ≠ []) (hdot : '.' ∉ text) :
    ∃ calls : List Call,
      request sh text prior
          ((globalMatches sh.completions text ++ scopeMatches sh.scope text).length + (1 + m))
        = some calls
      ∧ calls.map Call.ret
        = (globalMatches sh.completions text ++ scopeMatches sh.scope text).map some
            ++ List.replicate (1 + m) none
      ∧ ∀ r ∈ calls, r.ret = none → r.cmpl.phase = NJS_COMPLETION_SUFFIX := by
  obtain ⟨calls, hreq, hrets⟩ :=
    request_of_rets (requestRets_no_dot sh text prior hdot (1 + m))
  refine ⟨calls, hreq, hrets, ?_⟩
  rw [request_eq] at hreq
  exact requestFrom_forall
    (fun c => c.length = text.length)
    (fun r => r.ret = none → r.cmpl.phase = NJS_COMPLETION_SUFFIX)
    (generator_no_dot_step sh hdot hne) _ (resetSession text) 0 calls rfl hreq

/-- C7, at the source `console`, `.log`, `.help` without scope and the text
`con`: `console` once, then `NULL` on every later call. -/
theorem no_separator_rejection_permanent_witness :
    ("con".toList ≠ [] ∧ '.' ∉ "con".toList)
      ∧ (∃ calls : List Call,
          request shellExample "con".toList cmplZero
              ((globalMatches shellExample.completions "con".toList
                ++ scopeMatches shellExample.scope "con".toList).length + (1 + 2))
            = some calls
          ∧ calls.map Call.ret
            = (globalMatches shellExample.completions "con".toList
                ++ scopeMatches shellExample.scope "con".toList).map some
                ++ List.replicate (1 + 2) none
          ∧ ∀ r ∈ calls, r.ret = none → r.cmpl.phase = NJS_COMPLETION_SUFFIX)
      ∧ requestRets shellExample "con".toList cmplZero 4
        = some [some "console".toList, none, none, none] :=
  ⟨⟨by decide, by decide⟩,
    no_separator_rejection_permanent shellExample "con".toList cmplZero 2 (by decide)
      (by decide),
    by decide⟩

/-- C3, amended: when the source names are pairwise distinct, the in-scope
variable names are pairwise distinct and none of them is a source name, and no
scope name and no source name that does not start with `'.'` contains `'.'`,
the candidates a request returns up to its first `NULL` are pairwise distinct;
each call returns at most one candidate. -/
theorem candidates_distinct_of_distinct_sources (sh : Shell) (text : CStr)
    (prior : njs_completion_t)
    (hsrc : sh.completions.Nodup)
    (hglobal : ∀ name ∈ sh.completions, dotted name = false → '.' ∉ name)
    (hscope : (scopeNames sh.scope).Nodup)
    (hvars : ∀ var ∈ scopeNames sh.scope, var ∉ sh.completions ∧ '.' ∉ var) :
    ∃ cands : List CStr,
      requestRets sh text prior (cands.length + 1) = some (cands.map some ++ [none])
        ∧ cands.Nodup := by
  by_cases hdot : '.' ∈ text
  · obtain ⟨pre, suf, htext, hsuf⟩ := split_last_dot hdot
    have hG : globalMatches sh.completions text = [] := by
      unfold globalMatches
      rw [List.filter_eq_nil_iff]
      intro name hmem hp
      simp only [Bool.and_eq_true, Bool.not_eq_true'] at hp
      exact hglobal name hmem hp.1 (mem_of_isPrefixOf hdot hp.2)
    have hS : scopeMatches sh.scope text = [] := by
      rw [scopeMatches_eq_filter, List.filter_eq_nil_iff]
      intro var hmem hp
      exact (hvars var hmem).2 (mem_of_isPrefixOf hdot hp)
    have hrets := requestRets_dot sh pre suf prior hsuf
    rw [← htext, hG, hS] at hrets
    refine ⟨(dottedMatches sh.completions ('.' :: suf)).map (fun name => pre ++ name), ?_, ?_⟩
    · simpa using hrets
    · exact List.Nodup.map (List.append_right_injective pre) (List.Nodup.filter _ hsrc)
  · refine ⟨globalMatches sh.completions text ++ scopeMatches sh.scope text,
      requestRets_no_dot sh text prior hdot 1, ?_⟩
    rw [scopeMatches_eq_filter]
    refine List.Nodup.append (List.Nodup.filter _ hsrc) (List.Nodup.filter _ hscope) ?_
    intro x hx1 hx2
    have h1 : x ∈ sh.completions := (List.mem_filter.mp hx1).1
    have h2 : x ∈ scopeNames sh.scope := (List.mem_filter.mp hx2).1
    exact (hvars x h2).1 h1

/-- C3, amended, at the source `console`, `.log`, `constructor`, `.help` with
the scope `count`, `x` and the text `co`. -/
theorem candidates_distinct_of_distinct_sources_witness :
    (shellScoped.completions.Nodup
        ∧ (∀ name ∈ shellScoped.completions, dotted name = false → '.' ∉ name)
        ∧ (scopeNames shellScoped.scope).Nodup
        ∧ (∀ var ∈ scopeNames shellScoped.scope,
            var ∉ shellScoped.completions ∧ '.' ∉ var))
      ∧ ∃ cands : List CStr,
          requestRets shellScoped "co".toList cmplZero (cands.length + 1)
              = some (cands.map some ++ [none])
            ∧ cands.Nodup :=
  ⟨⟨by decide, by decide, by decide, by decide⟩,
    candidates_distinct_of_distinct_sources shellScoped "co".toList cmplZero
      (by decide) (by decide) (by decide) (by decide)⟩

/-! ## The claims about the loader, the trace and the driver -/

/-- C4, at a failing input: a regular file reported as 2 bytes long by `fstat`
delivers `ab` and then, having grown, `cde`.  The second read needs 5 bytes, the
single doubling gives 4, and the `memcpy` writes past the allocation: the loader
does not end with the 5 bytes read. -/
theorem loader_loses_chunk :
    loadScript allocAlways true 2 [.bytes "ab".toList, .bytes "cde".toList] = .overflow
      ∧ ¬ ∃ script : Script,
          loadScript allocAlways true 2 [.bytes "ab".toList, .bytes "cde".toList]
            = .loaded script := by
  have h : loadScript allocAlways true 2 [.bytes "ab".toList, .bytes "cde".toList]
      = .overflow := by decide
  refine ⟨h, ?_⟩
  rintro ⟨script, hs⟩
  rw [h] at hs
  exact LoadResult.noConfusion hs

/-- C5, at a failing input: with the size hint 1 and a first chunk of 3 bytes
the growth decision leaves a capacity of 2, less than length + chunk size = 3,
and the copy does not fit. -/
theorem loader_capacity_too_small :
    initialSize true 1 = 1
      ∧ grownSize 1 0 3 = 2
      ∧ grownSize 1 0 3 < 0 + 3
      ∧ loadScript allocAlways true 1 [.bytes "abc".toList] = .overflow := by
  refine ⟨by decide, by decide, by decide, by decide⟩

/-- C10, as stated, fails: with a runtime that compiles and runs the script but
whose `njs_vm_retval` fails, execution succeeds and the output is not set. -/
theorem driver_output_counterexample :
    (runtimeNoRetval.njs_vm_compile () "1".toList).1 = true
      ∧ (runtimeNoRetval.njs_vm_run ()).1 = true
      ∧ (njs_process_script runtimeNoRetval () optsBatch "1".toList).out = none
      ∧ (njs_process_script runtimeNoRetval () optsBatch "1".toList).ret = NXT_ERROR := by
  refine ⟨rfl, rfl, rfl, rfl⟩

/-- C10, amended: when compilation fails the output is the exception text and
execution is not invoked; when compilation succeeds execution is invoked exactly
once, the output is the exception text if execution fails, and if execution
succeeds the output is the return-value text when `njs_vm_retval` succeeds,
while on its failure the driver returns `NXT_ERROR` without an output. -/
theorem driver_outcome {σ : Type} (rt : Runtime σ) (vm : σ) (opts : njs_opts_t)
    (script : List Char) :
    ((rt.njs_vm_compile vm script).1 = false →
        (njs_process_script rt vm opts script).out
            = some (rt.njs_vm_exception (rt.njs_vm_compile vm script).2).1
          ∧ VmCall.run ∉ (njs_process_script rt vm opts script).calls)
      ∧ ((rt.njs_vm_compile vm script).1 = true →
          (njs_process_script rt vm opts script).calls.count VmCall.run = 1
          ∧ ((rt.njs_vm_run (rt.njs_vm_compile vm script).2).1 = false →
              (njs_process_script rt vm opts script).out
                = some (rt.njs_vm_exception
                    (rt.njs_vm_run (rt.njs_vm_compile vm script).2).2).1)
          ∧ ((rt.njs_vm_run (rt.njs_vm_compile vm script).2).1 = true →
              ∀ text : List Char,
                (rt.njs_vm_retval (rt.njs_vm_run (rt.njs_vm_compile vm script).2).2).1
                    = some text →
                (njs_process_script rt vm opts script).out = some text)
          ∧ ((rt.njs_vm_run (rt.njs_vm_compile vm script).2).1 = true →
              (rt.njs_vm_retval (rt.njs_vm_run (rt.njs_vm_compile vm script).2).2).1 = none →
              (njs_process_script rt vm opts script).out = none
                ∧ (njs_process_script rt vm opts script).ret = NXT_ERROR)) := by
  constructor
  · intro hc
    simp [njs_process_script, hc]
  · intro hc
    refine ⟨?_, ?_, ?_, ?_⟩
    · simp only [njs_process_script, hc, if_true]
      cases opts.disassemble <;> cases (rt.njs_vm_run (rt.njs_vm_compile vm script).2).1 <;>
        cases (rt.njs_vm_retval (rt.njs_vm_run (rt.njs_vm_compile vm script).2).2).1 <;>
        simp [List.count_cons]
    · intro hr
      simp [njs_process_script, hc, hr]
    · intro hr text hv
      simp [njs_process_script, hc, hr, hv]
    · intro hr hv
      simp [njs_process_script, hc, hr, hv]

/-! ## The driver's status and the disassembler -/

theorem process_script_out_of_ok {σ : Type} (rt : Runtime σ) (vm : σ) (opts : njs_opts_t)
    (script : List Char) :
    (njs_process_script rt vm opts script).ret = NXT_OK
      ↔ ∃ text, (njs_process_script rt vm opts script).out = some text := by
  cases hc : (rt.njs_vm_compile vm script).1 <;>
    cases hr : (rt.njs_vm_run (rt.njs_vm_compile vm script).2).1 <;>
    cases hv : (rt.njs_vm_retval (rt.njs_vm_run (rt.njs_vm_compile vm script).2).2).1 <;>
    simp [njs_process_script, hc, hr, hv]

theorem process_script_disassembler {σ : Type} (rt : Runtime σ) (vm : σ) (opts : njs_opts_t)
    (script : List Char) :
    VmCall.disassembler ∈ (njs_process_script rt vm opts script).calls
      ↔ opts.disassemble = true ∧ (rt.njs_vm_compile vm script).1 = true := by
  cases hd : opts.disassemble <;>
    cases hc : (rt.njs_vm_compile vm script).1 <;>
    cases hr : (rt.njs_vm_run (rt.njs_vm_compile vm script).2).1 <;>
    cases hv : (rt.njs_vm_retval (rt.njs_vm_run (rt.njs_vm_compile vm script).2).2).1 <;>
    simp [njs_process_script, hd, hc, hr, hv]

theorem shellLoop_disassembler {σ : Type} (rt : Runtime σ) (opts : njs_opts_t)
    (lines : List CStr) (vm : σ)
    (h : VmCall.disassembler ∈ (shellLoop rt opts lines vm).calls) :
    opts.disassemble = true := by
  induction lines generalizing vm with
  | nil => simp [shellLoop] at h
  | cons line rest ih =>
    unfold shellLoop at h
    split at h
    · exact ih vm h
    · simp only at h
      split at h
      · simp only [List.mem_append] at h
        rcases h with h | h
        · exact ((process_script_disassembler rt vm opts line).mp h).1
        · exact ih _ h
      · simp only [List.mem_append, List.mem_singleton] at h
        rcases h with (h | h) | h
        · exact ((process_script_disassembler rt vm opts line).mp h).1
        · cases h
        · exact ih _ h

/-! ## Option parsing -/

theorem optionsLoop_accept (argv0 : CStr) (args : List CStr) (opts : njs_opts_t)
    (h : ∀ p ∈ args, positional p = true ∨ flagChar p = 'd') :
    optionsLoop argv0 args opts
      = { ret := NXT_OK,
          opts :=
            { file := match (args.filter positional).getLast? with
                | some p => some p
                | none => opts.file,
              disassemble := opts.disassemble || args.any (fun p => !positional p),
              interactive := opts.interactive && args.all (fun p => !positional p) },
          stdout := [], stderr := [] } := by
  induction args generalizing opts with
  | nil => simp [optionsLoop]
  | cons p rest ih =>
    have hrest : ∀ q ∈ rest, positional q = true ∨ flagChar q = 'd' :=
      fun q hq => h q (List.mem_cons_of_mem p hq)
    cases hp : positional p with
    | true =>
      rw [optionsLoop, if_pos hp, ih _ hrest]
      simp only [List.filter_cons, hp, if_true, List.any_cons, List.all_cons, Bool.not_true,
        Bool.false_or, Bool.false_and, Bool.and_false]
      rw [List.getLast?_cons]
      cases hl : (rest.filter positional).getLast? <;> simp
    | false =>
      have hd : flagChar p = 'd' := by
        rcases h p (List.mem_cons_self p rest) with h1 | h1
        · rw [hp] at h1; cases h1
        · exact h1
      rw [optionsLoop, if_neg (by simp [hp]), if_pos hd, ih _ hrest]
      simp [List.filter_cons, hp]

theorem optionsLoop_append (argv0 : CStr) (pre tail : List CStr) (opts : njs_opts_t)
    (h : ∀ p ∈ pre, positional p = true ∨ flagChar p = 'd') :
    optionsLoop argv0 (pre ++ tail) opts
      = optionsLoop argv0 tail (optionsLoop argv0 pre opts).opts := by
  induction pre generalizing opts with
  | nil => simp [optionsLoop]
  | cons p rest ih =>
    have hrest : ∀ q ∈ rest, positional q = true ∨ flagChar q = 'd' :=
      fun q hq => h q (List.mem_cons_of_mem p hq)
    cases hp : positional p with
    | true =>
      simp only [List.cons_append, optionsLoop, hp, if_true]
      exact ih _ hrest
    | false =>
      have hd : flagChar p = 'd' := by
        rcases h p (List.mem_cons_self p rest) with h1 | h1
        · rw [hp] at h1; cases h1
        · exact h1
      simp only [List.cons_append, optionsLoop, hp, Bool.false_eq_true, if_false, hd, if_true]
      exact ih _ hrest

theorem optionsLoop_disassemble (argv0 : CStr) (args : List CStr) (opts : njs_opts_t)
    (h : (optionsLoop argv0 args opts).opts.disassemble = true) :
    opts.disassemble = true ∨ ∃ p ∈ args, positional p = false ∧ flagChar p = 'd' := by
  induction args generalizing opts with
  | nil => exact Or.inl (by simpa [optionsLoop] using h)
  | cons p rest ih =>
    unfold optionsLoop at h
    split at h
    · rcases ih _ h with h1 | ⟨q, hq, hq2⟩
      · exact Or.inl h1
      · exact Or.inr ⟨q, List.mem_cons_of_mem p hq, hq2⟩
    · rename_i hp
      split at h
      · rename_i hd
        exact Or.inr ⟨p, List.mem_cons_self p rest, by simpa using hp, hd⟩
      · split at h
        · exact Or.inl h
        · exact Or.inl h

theorem get_options_cons (opts : njs_opts_t) (argv0 : CStr) (args : List CStr) :
    njs_get_options opts (argv0 :: args) = optionsLoop argv0 args opts := by
  simp [njs_get_options]

theorem optionsLoop_usage (argv0 : CStr) (p : CStr) (rest : List CStr) (opts : njs_opts_t)
    (hp : positional p = false) (hd : flagChar p ≠ 'd') :
    optionsLoop argv0 (p :: rest) opts
      = { ret := if flagChar p = 'h' ∨ flagChar p = '?' then NXT_DONE else NXT_ERROR,
          opts := opts,
          stdout := usageLine argv0,
          stderr := if flagChar p = 'h' ∨ flagChar p = '?' then []
            else "Unknown argument: \"".toList ++ p ++ "\"\n".toList } := by
  rw [optionsLoop, if_neg (by simp [hp]), if_neg hd]
  by_cases hh : flagChar p = 'h' ∨ flagChar p = '?'
  · simp [hh]
  · simp [hh]

theorem interactive_shell_disassembler {σ : Type} (w : World σ) (opts : njs_opts_t)
    (h : VmCall.disassembler ∈ (njs_interactive_shell w opts).calls) :
    opts.disassemble = true := by
  unfold njs_interactive_shell at h
  cases hv : w.njs_vm_create with
  | none => simp [hv] at h
  | some vm =>
    cases hc : w.njs_vm_completions with
    | none => simp [hv, hc] at h
    | some c =>
      simp only [hv, hc] at h
      exact shellLoop_disassembler w.rt opts w.readline vm h

/-! ## The claims about the driver's status, the disassembler and the options -/

/-- C12, as stated, fails: the argument vector `njs -d` has no positional
argument and leaves the program in interactive mode, and the shell's call of the
driver for the line `1` invokes the disassembler. -/
theorem disassembler_interactive_counterexample :
    (njs_get_options initialOpts ["njs".toList, "-d".toList]).ret = NXT_OK
      ∧ (njs_get_options initialOpts ["njs".toList, "-d".toList]).opts.interactive = true
      ∧ (∀ p ∈ ["-d".toList], positional p = false)
      ∧ ∃ m : MainOutcome,
          main worldExample ["njs".toList, "-d".toList] = some m
            ∧ m.started = Started.shell
            ∧ VmCall.disassembler ∈ m.calls := by
  refine ⟨by decide, by decide, by decide, ?_⟩
  refine ⟨_, rfl, ?_, ?_⟩
  · decide
  · decide

/-- C12, amended: the driver invokes the disassembler exactly when the
disassemble option is set and compilation succeeds, whatever the mode; for an
argument vector that leaves the program in interactive mode, a call of the
driver by the interactive shell invokes the disassembler only if a `-d` flag is
among the arguments. -/
theorem disassembler_only_with_flag {σ : Type} (w : World σ) (vm : σ) (opts : njs_opts_t)
    (script : List Char) (argv : List CStr) :
    (VmCall.disassembler ∈ (njs_process_script w.rt vm opts script).calls
        ↔ opts.disassemble = true ∧ (w.rt.njs_vm_compile vm script).1 = true)
      ∧ ((njs_get_options initialOpts argv).opts.interactive = true →
          VmCall.disassembler
              ∈ (njs_interactive_shell w (njs_get_options initialOpts argv).opts).calls →
          ∃ p ∈ argv.drop 1, positional p = false ∧ flagChar p = 'd') := by
  refine ⟨process_script_disassembler w.rt vm opts script, ?_⟩
  intro _ hmem
  have hd := interactive_shell_disassembler w _ hmem
  rcases optionsLoop_disassemble _ _ _ hd with h1 | h1
  · simp [initialOpts] at h1
  · exact h1

/-- C17: when every argument after the program name is positional or a flag
whose character after `'-'` is `'d'`, `njs_get_options` returns `NXT_OK`,
leaves `interactive` set iff no argument is positional, sets `file` to the last
positional argument when there is one, and sets `disassemble` iff some argument
is such a flag. -/
theorem mode_selection (argv : List CStr)
    (h : ∀ p ∈ argv.drop 1, positional p = true ∨ flagChar p = 'd') :
    (njs_get_options initialOpts argv).ret = NXT_OK
      ∧ ((njs_get_options initialOpts argv).opts.interactive = true
          ↔ ∀ p ∈ argv.drop 1, positional p = false)
      ∧ (∀ f, ((argv.drop 1).filter positional).getLast? = some f →
          (njs_get_options initialOpts argv).opts.file = some f)
      ∧ ((njs_get_options initialOpts argv).opts.disassemble = true
          ↔ ∃ p ∈ argv.drop 1, positional p = false ∧ flagChar p = 'd') := by
  unfold njs_get_options
  rw [optionsLoop_accept _ _ _ h]
  refine ⟨rfl, ?_, ?_, ?_⟩
  · simp [initialOpts]
  · intro f hf
    simp only [hf]
  · simp only [initialOpts, Bool.false_or, List.any_eq_true, Bool.not_eq_true']
    constructor
    · rintro ⟨p, hp, hp2⟩
      refine ⟨p, hp, hp2, ?_⟩
      rcases h p hp with h1 | h1
      · rw [hp2] at h1; cases h1
      · exact h1
    · rintro ⟨p, hp, hp2, _⟩
      exact ⟨p, hp, hp2⟩

/-- C17, at the arguments `njs a.js -d -`: batch mode, file `-`, disassemble
set. -/
theorem mode_selection_witness :
    (∀ p ∈ ["njs".toList, "a.js".toList, "-d".toList, "-".toList].drop 1,
        positional p = true ∨ flagChar p = 'd')
      ∧ ((njs_get_options initialOpts
            ["njs".toList, "a.js".toList, "-d".toList, "-".toList]).ret = NXT_OK
        ∧ ((njs_get_options initialOpts
              ["njs".toList, "a.js".toList, "-d".toList, "-".toList]).opts.interactive = true
            ↔ ∀ p ∈ ["njs".toList, "a.js".toList, "-d".toList, "-".toList].drop 1,
                positional p = false)
        ∧ (∀ f, ((["njs".toList, "a.js".toList, "-d".toList, "-".toList].drop 1).filter
              positional).getLast? = some f →
            (njs_get_options initialOpts
              ["njs".toList, "a.js".toList, "-d".toList, "-".toList]).opts.file = some f)
        ∧ ((njs_get_options initialOpts
              ["njs".toList, "a.js".toList, "-d".toList, "-".toList]).opts.disassemble = true
            ↔ ∃ p ∈ ["njs".toList, "a.js".toList, "-d".toList, "-".toList].drop 1,
                positional p = false ∧ flagChar p = 'd'))
      ∧ (njs_get_options initialOpts
            ["njs".toList, "a.js".toList, "-d".toList, "-".toList]).opts
          = { file := some "-".toList, disassemble := true, interactive := false } :=
  ⟨by decide,
    mode_selection ["njs".toList, "a.js".toList, "-d".toList, "-".toList] (by decide),
    by decide⟩

/-- C18: at the first flag argument whose character after `'-'` is not `'d'`,
`njs_get_options` prints the usage line and stops, whatever follows; it returns
`NXT_DONE` when the character is `'h'` or `'?'` and `NXT_ERROR` otherwise, and
`main` exits with success in the first case and with failure in the second,
having entered neither the shell nor the file mode. -/
theorem usage_exit_status {σ : Type} (w : World σ) (argv0 : CStr) (pre : List CStr) (p : CStr)
    (rest : List CStr)
    (hpre : ∀ q ∈ pre, positional q = true ∨ flagChar q = 'd')
    (hp : positional p = false) (hd : flagChar p ≠ 'd') :
    (njs_get_options initialOpts (argv0 :: (pre ++ p :: rest))).ret
        = (if flagChar p = 'h' ∨ flagChar p = '?' then NXT_DONE else NXT_ERROR)
      ∧ (njs_get_options initialOpts (argv0 :: (pre ++ p :: rest))).stdout = usageLine argv0
      ∧ main w (argv0 :: (pre ++ p :: rest))
        = some { exit := if flagChar p = 'h' ∨ flagChar p = '?' then EXIT_SUCCESS
                   else EXIT_FAILURE,
                 stdout := usageLine argv0, started := Started.nothing, history := [],
                 calls := [] } := by
  have hopt : njs_get_options initialOpts (argv0 :: (pre ++ p :: rest))
      = { ret := if flagChar p = 'h' ∨ flagChar p = '?' then NXT_DONE else NXT_ERROR,
          opts := (optionsLoop argv0 pre initialOpts).opts,
          stdout := usageLine argv0,
          stderr := if flagChar p = 'h' ∨ flagChar p = '?' then []
            else "Unknown argument: \"".toList ++ p ++ "\"\n".toList } := by
    rw [get_options_cons, optionsLoop_append argv0 pre _ _ hpre,
      optionsLoop_usage argv0 p rest _ hp hd]
  refine ⟨by rw [hopt], by rw [hopt], ?_⟩
  unfold main
  rw [hopt]
  by_cases hh : flagChar p = 'h' ∨ flagChar p = '?'
  · simp [hh]
  · simp [hh]

/-- C18, at the arguments `njs -d -x a.js`: usage line, `NXT_ERROR`, exit with
failure; and `njs -h` exits with success. -/
theorem usage_exit_status_witness :
    ((∀ q ∈ ["-d".toList], positional q = true ∨ flagChar q = 'd')
        ∧ positional "-x".toList = false ∧ flagChar "-x".toList ≠ 'd')
      ∧ ((njs_get_options initialOpts
            ("njs".toList :: (["-d".toList] ++ "-x".toList :: ["a.js".toList]))).ret
          = (if flagChar "-x".toList = 'h' ∨ flagChar "-x".toList = '?' then NXT_DONE
              else NXT_ERROR)
        ∧ (njs_get_options initialOpts
            ("njs".toList :: (["-d".toList] ++ "-x".toList :: ["a.js".toList]))).stdout
          = usageLine "njs".toList
        ∧ main worldExample ("njs".toList :: (["-d".toList] ++ "-x".toList :: ["a.js".toList]))
          = some { exit := if flagChar "-x".toList = 'h' ∨ flagChar "-x".toList = '?' then
                     EXIT_SUCCESS else EXIT_FAILURE,
                   stdout := usageLine "njs".toList, started := Started.nothing,
                   history := [], calls := [] })
      ∧ main worldExample ["njs".toList, "-h".toList]
        = some { exit := EXIT_SUCCESS, stdout := "Usage: njs [<file>|-] [-d]\n".toList,
                 started := Started.nothing, history := [], calls := [] } :=
  ⟨⟨by decide, by decide, by decide⟩,
    usage_exit_status worldExample "njs".toList ["-d".toList] "-x".toList ["a.js".toList]
      (by decide) (by decide) (by decide),
    by decide⟩

/-! ## The interactive loop -/

theorem submitted_append (a b : List VmCall) :
    submitted (a ++ b) = submitted a ++ submitted b := by
  induction a with
  | nil => rfl
  | cons c rest ih =>
    cases c <;> simp [submitted, ih]

theorem submitted_process_script {σ : Type} (rt : Runtime σ) (vm : σ) (opts : njs_opts_t)
    (script : List Char) :
    submitted (njs_process_script rt vm opts script).calls = [script] := by
  cases hd : opts.disassemble <;>
    cases hc : (rt.njs_vm_compile vm script).1 <;>
    cases hr : (rt.njs_vm_run (rt.njs_vm_compile vm script).2).1 <;>
    cases hv : (rt.njs_vm_retval (rt.njs_vm_run (rt.njs_vm_compile vm script).2).2).1 <;>
    simp [njs_process_script, hd, hc, hr, hv, submitted]

/-- The loop ends with `NXT_OK`, and the lines recorded and the lines submitted
are the non-empty lines, in input order. -/
theorem shellLoop_lines {σ : Type} (rt : Runtime σ) (opts : njs_opts_t) (lines : List CStr)
    (vm : σ) :
    (shellLoop rt opts lines vm).ret = NXT_OK
      ∧ (shellLoop rt opts lines vm).history = lines.filter (fun line => !line.isEmpty)
      ∧ submitted (shellLoop rt opts lines vm).calls
        = lines.filter (fun line => !line.isEmpty) := by
  induction lines generalizing vm with
  | nil => simp [shellLoop, submitted]
  | cons line rest ih =>
    cases line with
    | nil =>
      simp only [shellLoop, List.length_nil, if_true, List.filter_cons, List.isEmpty_nil,
        Bool.not_true, Bool.false_eq_true, if_false]
      exact ih vm
    | cons a as =>
      have hne : ¬ (a :: as).length = 0 := by simp
      have ih2 := ih (njs_process_script rt vm opts (a :: as)).vm
      simp only [shellLoop, hne, if_false, List.filter_cons, List.isEmpty_cons, Bool.not_false,
        if_true]
      split
      · simp only [submitted_append, submitted_process_script, ih2.1, ih2.2.1, ih2.2.2,
          List.singleton_append, and_self]
      · simp only [submitted_append, submitted_process_script, ih2.1, ih2.2.1, ih2.2.2,
          List.singleton_append, submitted, List.nil_append, and_self]

/-! ## The claim about the interactive loop -/

/-- C14: once the VM and the completions are set up, `njs_interactive_shell`
records in the history and submits to the driver exactly the non-empty lines, in
input order, whatever the runtime does with them, and returns `NXT_OK` when
`readline` returns `NULL`. -/
theorem interactive_loop {σ : Type} (w : World σ) (opts : njs_opts_t) (vm : σ)
    (completions : List CStr)
    (hvm : w.njs_vm_create = some vm) (hcompl : w.njs_vm_completions = some completions) :
    (njs_interactive_shell w opts).ret = NXT_OK
      ∧ (njs_interactive_shell w opts).history
        = w.readline.filter (fun line => !line.isEmpty)
      ∧ submitted (njs_interactive_shell w opts).calls
        = w.readline.filter (fun line => !line.isEmpty) := by
  simp only [njs_interactive_shell, hvm, hcompl]
  exact shellLoop_lines w.rt opts w.readline vm

/-- C14, at the terminal input `1`, empty line, `(` with the example runtime:
the history and the submissions are `1` and `(`. -/
theorem interactive_loop_witness :
    (worldExample.njs_vm_create = some ()
        ∧ worldExample.njs_vm_completions = some shellExample.completions)
      ∧ ((njs_interactive_shell worldExample initialOpts).ret = NXT_OK
        ∧ (njs_interactive_shell worldExample initialOpts).history
          = worldExample.readline.filter (fun line => !line.isEmpty)
        ∧ submitted (njs_interactive_shell worldExample initialOpts).calls
          = worldExample.readline.filter (fun line => !line.isEmpty))
      ∧ (njs_interactive_shell worldExample initialOpts).history
        = ["1".toList, "(".toList] :=
  ⟨⟨rfl, rfl⟩,
    interactive_loop worldExample initialOpts () shellExample.completions rfl rfl,
    by decide⟩

/-! ## Batch mode -/

/-- The disassemble option changes neither the output text of the driver nor
its calls into the runtime, the call of the disassembler apart. -/
theorem process_script_disassemble_indep {σ : Type} (rt : Runtime σ) (vm : σ)
    (opts : njs_opts_t) (script : List Char) :
    (njs_process_script rt vm opts script).out
        = (njs_process_script rt vm { opts with disassemble := false } script).out
      ∧ (njs_process_script rt vm opts script).calls.filter
          (fun c => c != VmCall.disassembler)
        = (njs_process_script rt vm { opts with disassemble := false } script).calls := by
  cases hd : opts.disassemble <;>
    cases hc : (rt.njs_vm_compile vm script).1 <;>
    cases hr : (rt.njs_vm_run (rt.njs_vm_compile vm script).2).1 <;>
    cases hv : (rt.njs_vm_retval (rt.njs_vm_run (rt.njs_vm_compile vm script).2).2).1 <;>
    simp [njs_process_script, hd, hc, hr, hv, List.filter_cons]

/-- The run of `njs_process_file` once the file is loaded and the VM created. -/
theorem process_file_loaded {σ : Type} (w : World σ) (opts : njs_opts_t) (file : CStr)
    (f : File) (script : Script) (vm : σ)
    (hfile : opts.file = some file)
    (hfd : (if file = ['-'] then some w.stdin else w.openFile file) = some f)
    (hload : loadScript w.alloc f.isreg f.st_size f.reads = .loaded script)
    (hvm : w.njs_vm_create = some vm) :
    njs_process_file w opts
      = if (njs_process_script w.rt vm opts (script.start.take script.length)).ret ≠ NXT_OK then
          some { ret := NXT_ERROR,
                 stdout :=
                   (njs_process_script w.rt vm opts (script.start.take script.length)).stdout,
                 vm_create := true,
                 calls :=
                   (njs_process_script w.rt vm opts (script.start.take script.length)).calls }
        else if opts.disassemble then
          some { ret := NXT_OK,
                 stdout :=
                   (njs_process_script w.rt vm opts (script.start.take script.length)).stdout,
                 vm_create := true,
                 calls :=
                   (njs_process_script w.rt vm opts (script.start.take script.length)).calls }
        else
          some { ret := NXT_OK,
                 stdout := printResult w.rt
                   (njs_process_script w.rt vm opts (script.start.take script.length)),
                 vm_create := true,
                 calls :=
                   (njs_process_script w.rt vm opts (script.start.take script.length)).calls
                     ++ [VmCall.backtrace] } := by
  unfold njs_process_file
  simp only [hfile, hfd, hload, hvm]

theorem process_script_no_backtrace_call {σ : Type} (rt : Runtime σ) (vm : σ)
    (opts : njs_opts_t) (script : List Char) :
    VmCall.backtrace ∉ (njs_process_script rt vm opts script).calls := by
  cases hd : opts.disassemble <;>
    cases hc : (rt.njs_vm_compile vm script).1 <;>
    cases hr : (rt.njs_vm_run (rt.njs_vm_compile vm script).2).1 <;>
    cases hv : (rt.njs_vm_retval (rt.njs_vm_run (rt.njs_vm_compile vm script).2).2).1 <;>
    simp [njs_process_script, hd, hc, hr, hv]

/-- With a capacity of at least 4096 and chunks of at most 4096 bytes, the loop
either stops on a failed allocation or reaches, after the chunks, a state that
holds all their bytes within a capacity of at least 4096. -/
theorem readLoop_chunks (alloc : Nat → Bool) (chunks : List (List Char))
    (rest : List ReadResult) (script : Script)
    (hsize : 4096 ≤ script.size) (hlen : script.length ≤ script.size)
    (hchunks : ∀ c ∈ chunks, 1 ≤ c.length ∧ c.length ≤ 4096)
    (hwrap : script.length + (chunks.map List.length).sum ≤ 2 ^ 63) :
    readLoop alloc (chunks.map ReadResult.bytes ++ rest) script = .error
      ∨ ∃ s : Script,
          readLoop alloc (chunks.map ReadResult.bytes ++ rest) script = readLoop alloc rest s
            ∧ 4096 ≤ s.size ∧ s.length ≤ s.size
            ∧ s.length = script.length + (chunks.map List.length).sum
            ∧ s.start = script.start ++ chunks.flatten := by
  induction chunks generalizing script with
  | nil => exact Or.inr ⟨script, by simp, hsize, hlen, by simp, by simp⟩
  | cons c cs ih =>
    have hc := hchunks c (List.mem_cons_self c cs)
    have hcs : ∀ d ∈ cs, 1 ≤ d.length ∧ d.length ≤ 4096 :=
      fun d hd => hchunks d (List.mem_cons_of_mem c hd)
    simp only [List.map_cons, List.sum_cons] at hwrap
    have hn : ¬ c.length = 0 := by omega
    have hgrow : script.length + c.length ≤ grownSize script.size script.length c.length
        ∧ 4096 ≤ grownSize script.size script.length c.length := by
      unfold grownSize
      split
      · have hlt : script.size * 2 < 2 ^ 64 := by omega
        rw [Nat.mod_eq_of_lt hlt]
        omega
      · omega
    simp only [List.map_cons, List.cons_append, readLoop, hn, if_false]
    by_cases herr : script.length + c.length > script.size
        ∧ alloc (grownSize script.size script.length c.length) = false
    · exact Or.inl (by rw [if_pos herr])
    · rw [if_neg herr, if_neg (by omega)]
      rcases ih { size := grownSize script.size script.length c.length,
                  length := script.length + c.length,
                  start := script.start ++ c } hgrow.2 hgrow.1 hcs (by simp only; omega) with
        h | ⟨s, h1, h2, h3, h4, h5⟩
      · exact Or.inl h
      · refine Or.inr ⟨s, h1, h2, h3, ?_, ?_⟩
        · simp only [List.map_cons, List.sum_cons] at h4 ⊢
          omega
        · simp only [List.flatten_cons, List.append_assoc] at h5 ⊢
          exact h5

/-- A read loop that meets a failed read after non-empty chunks does not end
with a script. -/
theorem readLoop_failed (alloc : Nat → Bool) (chunks : List (List Char))
    (rest : List ReadResult) (script : Script) (hne : ∀ c ∈ chunks, c ≠ []) :
    readLoop alloc (chunks.map ReadResult.bytes ++ ReadResult.failed :: rest) script = .error
      ∨ readLoop alloc (chunks.map ReadResult.bytes ++ ReadResult.failed :: rest) script
        = .overflow := by
  induction chunks generalizing script with
  | nil => exact Or.inl (by simp [readLoop])
  | cons c cs ih =>
    have hc : ¬ c.length = 0 := by
      intro e
      exact hne c (List.mem_cons_self c cs) (List.length_eq_zero.mp e)
    have hcs : ∀ d ∈ cs, d ≠ [] := fun d hd => hne d (List.mem_cons_of_mem c hd)
    simp only [List.map_cons, List.cons_append, readLoop, hc, if_false]
    split
    · exact Or.inl rfl
    · split
      · exact Or.inr rfl
      · exact ih _ hcs

/-- When the reads of the file end in a failed read after non-empty chunks,
`njs_process_file` either has no defined result (a copy overflowed the buffer)
or returns `NXT_ERROR` without creating the VM, calling the runtime or writing
to standard output. -/
theorem process_file_read_failed {σ : Type} (w : World σ) (opts : njs_opts_t) (file : CStr)
    (f : File) (chunks : List (List Char))
    (hfile : opts.file = some file)
    (hfd : (if file = ['-'] then some w.stdin else w.openFile file) = some f)
    (hreads : f.reads = chunks.map ReadResult.bytes ++ [ReadResult.failed])
    (hne : ∀ c ∈ chunks, c ≠ []) :
    njs_process_file w opts = none
      ∨ njs_process_file w opts
        = some { ret := NXT_ERROR, stdout := [], vm_create := false, calls := [] } := by
  have hload : loadScript w.alloc f.isreg f.st_size f.reads = .error
      ∨ loadScript w.alloc f.isreg f.st_size f.reads = .overflow := by
    unfold loadScript
    simp only
    split
    · exact Or.inl rfl
    · rw [hreads]
      exact readLoop_failed w.alloc chunks [] _ hne
  unfold njs_process_file
  simp only [hfile, hfd]
  rcases hload with h | h
  · right; rw [h]
  · left; rw [h]

/-! ## The claims about the loader and the cursor -/

/-- C19: when the initial capacity is at least 4096 (as it is with the default
hint), the chunks have 1 to 4096 bytes and the doubled size does not wrap, then
after the chunks the loader either has stopped on a failed allocation or holds
all their bytes, in order, with capacity at least 4096 and length at most the
capacity; no copy exceeds the allocation. -/
theorem single_doubling_suffices (alloc : Nat → Bool) (isreg : Bool) (st_size : Nat)
    (chunks : List (List Char)) (rest : List ReadResult)
    (hcap : 4096 ≤ initialSize isreg st_size)
    (hchunks : ∀ c ∈ chunks, 1 ≤ c.length ∧ c.length ≤ 4096)
    (hwrap : (chunks.map List.length).sum ≤ 2 ^ 63) :
    (loadScript alloc isreg st_size (chunks.map ReadResult.bytes ++ rest) = .error
        ∨ ∃ s : Script,
            loadScript alloc isreg st_size (chunks.map ReadResult.bytes ++ rest)
                = readLoop alloc rest s
              ∧ 4096 ≤ s.size ∧ s.length ≤ s.size
              ∧ s.length = (chunks.map List.length).sum
              ∧ s.start = chunks.flatten)
      ∧ loadScript alloc isreg st_size (chunks.map ReadResult.bytes) ≠ .overflow
      ∧ initialSize false st_size = 4096 := by
  have key : ∀ tail : List ReadResult,
      loadScript alloc isreg st_size (chunks.map ReadResult.bytes ++ tail) = .error
        ∨ ∃ s : Script,
            loadScript alloc isreg st_size (chunks.map ReadResult.bytes ++ tail)
                = readLoop alloc tail s
              ∧ 4096 ≤ s.size ∧ s.length ≤ s.size
              ∧ s.length = (chunks.map List.length).sum
              ∧ s.start = chunks.flatten := by
    intro tail
    unfold loadScript
    simp only
    split
    · exact Or.inl rfl
    · rcases readLoop_chunks alloc chunks tail
          { size := initialSize isreg st_size, length := 0, start := [] } hcap
          (Nat.zero_le _) hchunks (by simpa using hwrap) with h | ⟨s, h1, h2, h3, h4, h5⟩
      · exact Or.inl h
      · exact Or.inr ⟨s, h1, h2, h3, by simpa using h4, by simpa using h5⟩
  refine ⟨key rest, ?_, rfl⟩
  rcases key [] with h | ⟨s, h1, _⟩
  · simp only [List.append_nil] at h
    rw [h]
    exact fun e => LoadResult.noConfusion e
  · simp only [List.append_nil, readLoop] at h1
    rw [h1]
    exact fun e => LoadResult.noConfusion e

/-- C19, with the default hint (not a regular file) and the chunks `ab`,
`cde`: the loader ends with the five bytes in a buffer of 4096. -/
theorem single_doubling_suffices_witness :
    (4096 ≤ initialSize false 0
        ∧ (∀ c ∈ ["ab".toList, "cde".toList], 1 ≤ c.length ∧ c.length ≤ 4096)
        ∧ (["ab".toList, "cde".toList].map List.length).sum ≤ 2 ^ 63)
      ∧ ((loadScript allocAlways false 0
              (["ab".toList, "cde".toList].map ReadResult.bytes ++ []) = .error
          ∨ ∃ s : Script,
              loadScript allocAlways false 0
                  (["ab".toList, "cde".toList].map ReadResult.bytes ++ [])
                  = readLoop allocAlways [] s
                ∧ 4096 ≤ s.size ∧ s.length ≤ s.size
                ∧ s.length = (["ab".toList, "cde".toList].map List.length).sum
                ∧ s.start = ["ab".toList, "cde".toList].flatten)
        ∧ loadScript allocAlways false 0 (["ab".toList, "cde".toList].map ReadResult.bytes)
          ≠ .overflow
        ∧ initialSize false 0 = 4096)
      ∧ loadScript allocAlways false 0 [.bytes "ab".toList, .bytes "cde".toList]
        = .loaded { size := 4096, length := 5, start := "abcde".toList } :=
  ⟨⟨by decide, by decide, by decide⟩,
    single_doubling_suffices allocAlways false 0 ["ab".toList, "cde".toList] []
      (by decide) (by decide) (by decide),
    by decide⟩

/-- C20, at a failing input: on the source `console`, `.log`, `.help` (sentinel
at index 3) the request for `console.h` leaves the cursor at 3 after its first
call and at 4, past the sentinel, after the call that returns `NULL`; one more
continuation call reads the array at index 4, outside it. -/
theorem cursor_past_sentinel :
    shellExample.completions.length = 3
      ∧ (request shellExample "console.h".toList cmplZero 2).map
          (List.map (fun r => (r.ret, r.cmpl.index, r.cmpl.phase)))
        = some [(some "console.help".toList, 3, NJS_COMPLETION_SUFFIX),
                (none, 4, NJS_COMPLETION_SUFFIX)]
      ∧ request shellExample "console.h".toList cmplZero 3 = none := by
  refine ⟨by decide, by decide, by decide⟩

/-! ## The session reset -/

/-- The continuation of the generator from the reset session always returns:
the session it leaves has the length of the text, and as long as the backward
scan has not run it is in the GLOBAL phase with both cursors within their
sources. -/
theorem generator_reset_result (sh : Shell) (text : CStr) (prior : njs_completion_t) :
    ∃ r : Call, njs_completion_generator sh text 0 prior = some r
      ∧ r.cmpl.length = text.length
      ∧ (r.scanned = false → r.cmpl.phase = NJS_COMPLETION_GLOBAL) := by
  simp only [njs_completion_generator, if_true, Nat.not_lt_zero, if_false, List.drop_zero]
  split
  · exact ⟨_, rfl, rfl, fun _ => rfl⟩
  · split
    · exact ⟨_, rfl, rfl, fun _ => rfl⟩
    · split
      · exact ⟨_, rfl, rfl, fun _ => rfl⟩
      · rename_i hlen
        have hguard : ¬ (text.length = 0 ∨ text.length < text.length - 1) := by omega
        simp only [suffixPhase, hguard, if_false, Nat.not_lt_zero]
        split
        · exact ⟨_, rfl, rfl, fun h => by simp at h⟩
        · split
          · exact ⟨_, rfl, rfl, fun h => by simp at h⟩
          · exact ⟨_, rfl, rfl, fun h => by simp at h⟩

/-! ## The claim about the session reset -/

/-- C8: whatever the session was before, a state-0 call returns, leaves the
length of the text in the session, starts from cursor 0 in the GLOBAL phase with
the scope iterator at its origin (it returns the first match of the array and
leaves the cursor behind it, the iterator untouched), and acts as a continuation
call on the reset session; two requests for the same text from two prior
sessions make the same calls with the same results. -/
theorem session_reset (sh : Shell) (text : CStr) (prior1 prior2 : njs_completion_t) (k : Nat) :
    (∃ r : Call, njs_completion_generator sh text 0 prior1 = some r
        ∧ r.cmpl.length = text.length
        ∧ (r.scanned = false → r.cmpl.phase = NJS_COMPLETION_GLOBAL))
      ∧ (∀ (name : CStr) (index : Nat),
          globalLoop text text.length sh.completions 0 = (some name, index) →
          njs_completion_generator sh text 0 prior1
            = some { ret := some name,
                     cmpl := { index := index, length := text.length, lhe := 0,
                               phase := NJS_COMPLETION_GLOBAL },
                     scanned := false })
      ∧ njs_completion_generator sh text 0 prior1
        = njs_completion_generator sh text 1
            { index := 0, length := text.length, lhe := 0, phase := NJS_COMPLETION_GLOBAL }
      ∧ request sh text prior1 k = request sh text prior2 k
      ∧ requestRets sh text prior1 k = requestRets sh text prior2 k := by
  refine ⟨generator_reset_result sh text prior1, ?_, generator_state_zero sh text 0 prior1,
    ?_, ?_⟩
  · intro name index h
    simp [njs_completion_generator, h]
  · rw [request_eq, request_eq]
  · rw [requestRets_eq, requestRets_eq]

/-! ## Printing -/

theorem printf_s_of_no_nul {text : List Char} (h : '\x00' ∉ text) : printf_s text = text := by
  unfold printf_s
  induction text with
  | nil => rfl
  | cons c cs ih =>
    have hc : c ≠ '\x00' := fun e => h (by simp [e])
    have hcs : '\x00' ∉ cs := fun e => h (by simp [e])
    have hb : (c != '\x00') = true := by simp [hc]
    rw [List.takeWhile_cons, hb, if_pos rfl, ih hcs]

theorem printf_d_of_lt {v : Nat} (h : v < 2 ^ 31) : printf_d v = Nat.toDigits 10 v := by
  have hmod : v % 2 ^ 32 = v := Nat.mod_eq_of_lt (by omega)
  simp only [printf_d, hmod, h, if_true]

theorem print_backtrace_append (backtrace : List njs_backtrace_entry_t) (stdout : List Char) :
    njs_print_backtrace backtrace stdout = stdout ++ njs_print_backtrace backtrace [] := by
  unfold njs_print_backtrace
  induction backtrace generalizing stdout with
  | nil => simp
  | cons be rest ih =>
    rw [List.foldl_cons, List.foldl_cons, ih, ih (printEntry [] be)]
    have : printEntry stdout be = stdout ++ printEntry [] be := by
      unfold printEntry
      split <;> simp
    rw [this, List.append_assoc]

/-! ## The claim about the trace -/

/-- C9, as stated, fails: a frame whose name holds a NUL byte is printed up to
that byte only, and a frame whose line is `2 ^ 31` is printed with a negative
number. -/
theorem trace_rendering_counterexample :
    njs_print_backtrace framesOdd [] = "at a\nat foo (:-2147483648)\n".toList
      ∧ njs_print_backtrace framesOdd []
        ≠ (framesOdd.map (fun be => frameLine be.name be.line ++ ['\n'])).flatten := by
  constructor
  · decide
  · decide

/-- C9, amended: for a backtrace whose frames have a line below `2 ^ 31` and a
name without NUL byte, `njs_print_backtrace` appends to standard output one line
per frame, in the stored order: `at <name> (:<line>)` when the line is not zero,
`at <name>` when it is. -/
theorem trace_rendering (backtrace : List njs_backtrace_entry_t) (stdout : List Char)
    (h : ∀ be ∈ backtrace, be.line < 2 ^ 31 ∧ '\x00' ∉ be.name) :
    njs_print_backtrace backtrace stdout
      = stdout ++ (backtrace.map (fun be => frameLine be.name be.line ++ ['\n'])).flatten := by
  unfold njs_print_backtrace
  induction backtrace generalizing stdout with
  | nil => simp
  | cons be rest ih =>
    have hbe := h be (List.mem_cons_self be rest)
    have hrest : ∀ b ∈ rest, b.line < 2 ^ 31 ∧ '\x00' ∉ b.name :=
      fun b hb => h b (List.mem_cons_of_mem be hb)
    rw [List.foldl_cons, ih _ hrest]
    by_cases hz : be.line = 0
    · simp [printEntry, frameLine, hz, printf_s_of_no_nul hbe.2]
    · simp [printEntry, frameLine, hz, printf_s_of_no_nul hbe.2, printf_d_of_lt hbe.1]

/-- C9, amended, at the frames `foo`, 12 and `<anonymous>`, 0: `at foo (:12)`
and `at <anonymous>`. -/
theorem trace_rendering_witness :
    (∀ be ∈ [({ name := "foo".toList, line := 12 } : njs_backtrace_entry_t),
          { name := "<anonymous>".toList, line := 0 }],
        be.line < 2 ^ 31 ∧ '\x00' ∉ be.name)
      ∧ njs_print_backtrace
          [{ name := "foo".toList, line := 12 }, { name := "<anonymous>".toList, line := 0 }] []
        = [] ++ ([({ name := "foo".toList, line := 12 } : njs_backtrace_entry_t),
              { name := "<anonymous>".toList, line := 0 }].map
            (fun be => frameLine be.name be.line ++ ['\n'])).flatten
      ∧ njs_print_backtrace
          [{ name := "foo".toList, line := 12 }, { name := "<anonymous>".toList, line := 0 }] []
        = "at foo (:12)\nat <anonymous>\n".toList :=
  ⟨by decide,
    trace_rendering
      [{ name := "foo".toList, line := 12 }, { name := "<anonymous>".toList, line := 0 }] []
      (by decide),
    by decide⟩

/-! ## The claim about the driver's status -/

theorem printResult_eq {σ : Type} (rt : Runtime σ) (r : ScriptOutcome σ) :
    printResult rt r
      = r.stdout ++ (printf_s (r.out.getD []) ++ ['\n'])
          ++ renderedTrace (rt.njs_vm_backtrace r.vm) := by
  unfold printResult renderedTrace
  cases rt.njs_vm_backtrace r.vm with
  | none => simp
  | some backtrace => exact print_backtrace_append backtrace _

theorem process_script_stdout {σ : Type} (rt : Runtime σ) (vm : σ) (opts : njs_opts_t)
    (script : List Char) :
    (njs_process_script rt vm opts script).stdout
      = (if opts.disassemble = true ∧ (rt.njs_vm_compile vm script).1 = true then
          rt.njs_disassembler (rt.njs_vm_compile vm script).2 ++ ['\n']
        else [])
        ++ (if (rt.njs_vm_compile vm script).1 = true then
            rt.run_stdout (rt.njs_vm_compile vm script).2
          else []) := by
  cases hd : opts.disassemble <;>
    cases hc : (rt.njs_vm_compile vm script).1 <;>
    cases hr : (rt.njs_vm_run (rt.njs_vm_compile vm script).2).1 <;>
    cases hv : (rt.njs_vm_retval (rt.njs_vm_run (rt.njs_vm_compile vm script).2).2).1 <;>
    simp [njs_process_script, hd, hc, hr, hv]

/-! ## The claim about batch disassembly -/

/-- C13: in `njs_process_file`, with the disassemble option set the driver is
run as without it (same output text, same calls into the runtime, the
disassembler apart), but standard output receives only the disassembly and what
the script itself prints while it runs, neither the result text nor a trace
line, and the backtrace is not asked for; with the option not set, the result
text is written after the script's own output, followed by the rendered trace
if the runtime gives one. -/
theorem batch_disassembly_suppression {σ : Type} (w : World σ) (opts : njs_opts_t)
    (file : CStr) (f : File) (script : Script) (vm : σ)
    (hfile : opts.file = some file)
    (hfd : (if file = ['-'] then some w.stdin else w.openFile file) = some f)
    (hload : loadScript w.alloc f.isreg f.st_size f.reads = .loaded script)
    (hvm : w.njs_vm_create = some vm) :
    (opts.disassemble = true →
        ∃ o : FileOutcome, njs_process_file w opts = some o
          ∧ o.stdout
            = (if (w.rt.njs_vm_compile vm (script.start.take script.length)).1 = true then
                w.rt.njs_disassembler
                    (w.rt.njs_vm_compile vm (script.start.take script.length)).2 ++ ['\n']
                  ++ w.rt.run_stdout
                    (w.rt.njs_vm_compile vm (script.start.take script.length)).2
              else [])
          ∧ VmCall.backtrace ∉ o.calls
          ∧ o.calls.filter (fun c => c != VmCall.disassembler)
            = (njs_process_script w.rt vm { opts with disassemble := false }
                (script.start.take script.length)).calls
          ∧ (njs_process_script w.rt vm opts (script.start.take script.length)).out
            = (njs_process_script w.rt vm { opts with disassemble := false }
                (script.start.take script.length)).out)
      ∧ (opts.disassemble = false →
          ∀ text : List Char,
            (njs_process_script w.rt vm opts (script.start.take script.length)).out
              = some text →
            ∃ o : FileOutcome, njs_process_file w opts = some o
              ∧ o.ret = NXT_OK
              ∧ o.stdout
                = (if (w.rt.njs_vm_compile vm (script.start.take script.length)).1 = true then
                    w.rt.run_stdout
                      (w.rt.njs_vm_compile vm (script.start.take script.length)).2
                  else [])
                  ++ (printf_s text ++ ['\n'])
                  ++ renderedTrace (w.rt.njs_vm_backtrace
                      (njs_process_script w.rt vm opts
                        (script.start.take script.length)).vm)) := by
  have hfile_eq := process_file_loaded w opts file f script vm hfile hfd hload hvm
  have hindep := process_script_disassemble_indep w.rt vm opts
    (script.start.take script.length)
  have hnobt := process_script_no_backtrace_call w.rt vm opts
    (script.start.take script.length)
  have hstdout := process_script_stdout w.rt vm opts (script.start.take script.length)
  constructor
  · intro hd
    rw [hd] at hstdout
    have hstd2 : (njs_process_script w.rt vm opts (script.start.take script.length)).stdout
        = (if (w.rt.njs_vm_compile vm (script.start.take script.length)).1 = true then
            w.rt.njs_disassembler
                (w.rt.njs_vm_compile vm (script.start.take script.length)).2 ++ ['\n']
              ++ w.rt.run_stdout
                (w.rt.njs_vm_compile vm (script.start.take script.length)).2
          else []) := by
      rw [hstdout]
      by_cases hc : (w.rt.njs_vm_compile vm (script.start.take script.length)).1 = true
      · simp [hc]
      · simp [hc]
    by_cases hret :
        (njs_process_script w.rt vm opts (script.start.take script.length)).ret ≠ NXT_OK
    · rw [if_pos hret] at hfile_eq
      exact ⟨_, hfile_eq, hstd2, hnobt, hindep.2, hindep.1⟩
    · rw [if_neg hret, if_pos hd] at hfile_eq
      exact ⟨_, hfile_eq, hstd2, hnobt, hindep.2, hindep.1⟩
  · intro hd text hout
    have hret : ¬ (njs_process_script w.rt vm opts (script.start.take script.length)).ret
        ≠ NXT_OK := by
      intro hne
      exact hne ((process_script_out_of_ok w.rt vm opts _).mpr ⟨text, hout⟩)
    rw [if_neg hret, if_neg (by simp [hd])] at hfile_eq
    refine ⟨_, hfile_eq, rfl, ?_⟩
    rw [hd] at hstdout
    simp only [Bool.false_eq_true, false_and, if_false, List.nil_append] at hstdout
    simp only [printResult_eq, hstdout, hout, Option.getD_some]

/-- C13, on the file `1+1` from standard input with a runtime whose scripts
print `hi`: with `-d` standard output holds the disassembly and `hi`, without
it `hi` and the result text. -/
theorem batch_disassembly_suppression_witness :
    (optsDisassemble.file = some "-".toList
        ∧ (if "-".toList = ['-'] then some worldLogging.stdin
            else worldLogging.openFile "-".toList) = some fileExample
        ∧ loadScript worldLogging.alloc fileExample.isreg fileExample.st_size
            fileExample.reads
          = .loaded { size := 3, length := 3, start := "1+1".toList }
        ∧ worldLogging.njs_vm_create = some ())
      ∧ (njs_process_file worldLogging optsDisassemble).map FileOutcome.stdout
        = some "STOP\nhi\n".toList
      ∧ (njs_process_file worldLogging optsBatch).map FileOutcome.stdout
        = some "hi\nundefined\n".toList
      ∧ ((optsDisassemble.disassemble = true →
            ∃ o : FileOutcome, njs_process_file worldLogging optsDisassemble = some o
              ∧ o.stdout
                = (if (worldLogging.rt.njs_vm_compile ()
                      (("1+1".toList).take 3)).1 = true then
                    worldLogging.rt.njs_disassembler
                        (worldLogging.rt.njs_vm_compile () (("1+1".toList).take 3)).2
                        ++ ['\n']
                      ++ worldLogging.rt.run_stdout
                        (worldLogging.rt.njs_vm_compile () (("1+1".toList).take 3)).2
                  else [])
              ∧ VmCall.backtrace ∉ o.calls
              ∧ o.calls.filter (fun c => c != VmCall.disassembler)
                = (njs_process_script worldLogging.rt ()
                    { optsDisassemble with disassemble := false }
                    (("1+1".toList).take 3)).calls
              ∧ (njs_process_script worldLogging.rt () optsDisassemble
                    (("1+1".toList).take 3)).out
                = (njs_process_script worldLogging.rt ()
                    { optsDisassemble with disassemble := false }
                    (("1+1".toList).take 3)).out)
        ∧ (optsDisassemble.disassemble = false →
            ∀ text : List Char,
              (njs_process_script worldLogging.rt () optsDisassemble
                  (("1+1".toList).take 3)).out = some text →
              ∃ o : FileOutcome, njs_process_file worldLogging optsDisassemble = some o
                ∧ o.ret = NXT_OK
                ∧ o.stdout
                  = (if (worldLogging.rt.njs_vm_compile ()
                        (("1+1".toList).take 3)).1 = true then
                      worldLogging.rt.run_stdout
                        (worldLogging.rt.njs_vm_compile () (("1+1".toList).take 3)).2
                    else [])
                    ++ (printf_s text ++ ['\n'])
                    ++ renderedTrace (worldLogging.rt.njs_vm_backtrace
                        (njs_process_script worldLogging.rt () optsDisassemble
                          (("1+1".toList).take 3)).vm))) :=
  ⟨⟨rfl, rfl, by decide, rfl⟩, by decide, by decide,
    batch_disassembly_suppression worldLogging optsDisassemble "-".toList fileExample
      { size := 3, length := 3, start := "1+1".toList } () rfl rfl (by decide) rfl⟩

/-! ## The claims about compile-time errors and failed reads -/

/-- C15: when the reads of the file end in a failed read after non-empty
chunks, and no copy of a chunk has run past the buffer, `njs_process_file`
returns `NXT_ERROR` without creating the VM, without a call into the runtime
and without writing to standard output; the read loop returns at a failed
read whatever it has read before and whatever would follow. -/
theorem read_failure_fatal {σ : Type} (w : World σ) (opts : njs_opts_t) (file : CStr)
    (f : File) (chunks : List (List Char))
    (hfile : opts.file = some file)
    (hfd : (if file = ['-'] then some w.stdin else w.openFile file) = some f)
    (hreads : f.reads = chunks.map ReadResult.bytes ++ [ReadResult.failed])
    (hne : ∀ c ∈ chunks, c ≠ [])
    (hdef : loadScript w.alloc f.isreg f.st_size f.reads ≠ .overflow) :
    njs_process_file w opts
        = some { ret := NXT_ERROR, stdout := [], vm_create := false, calls := [] }
      ∧ ∀ (alloc : Nat → Bool) (rest : List ReadResult) (script : Script),
          readLoop alloc (ReadResult.failed :: rest) script = .error := by
  refine ⟨?_, fun _ _ _ => rfl⟩
  have hload : loadScript w.alloc f.isreg f.st_size f.reads = .error := by
    have h2 : loadScript w.alloc f.isreg f.st_size f.reads = .error
        ∨ loadScript w.alloc f.isreg f.st_size f.reads = .overflow := by
      unfold loadScript
      simp only
      split
      · exact Or.inl rfl
      · rw [hreads]
        exact readLoop_failed w.alloc chunks [] _ hne
    rcases h2 with h | h
    · exact h
    · exact absurd h hdef
  unfold njs_process_file
  simp only [hfile, hfd, hload]

/-- C15, on standard input that delivers `ab` and then fails. -/
theorem read_failure_fatal_witness :
    (optsBatch.file = some "-".toList
        ∧ (if "-".toList = ['-'] then some worldFailing.stdin
            else worldFailing.openFile "-".toList) = some fileFailing
        ∧ fileFailing.reads = ["ab".toList].map ReadResult.bytes ++ [ReadResult.failed]
        ∧ (∀ c ∈ ["ab".toList], c ≠ [])
        ∧ loadScript worldFailing.alloc fileFailing.isreg fileFailing.st_size
            fileFailing.reads ≠ .overflow)
      ∧ (njs_process_file worldFailing optsBatch
          = some { ret := NXT_ERROR, stdout := [], vm_create := false, calls := [] }
        ∧ ∀ (alloc : Nat → Bool) (rest : List ReadResult) (script : Script),
            readLoop alloc (ReadResult.failed :: rest) script = .error) :=
  ⟨⟨rfl, rfl, rfl, by decide, by decide⟩,
    read_failure_fatal worldFailing optsBatch "-".toList fileFailing ["ab".toList]
      rfl rfl rfl (by decide) (by decide)⟩

end Njs
